import Mathlib

/-!
# Stringinator: statistics aggregate and character frequency analyzer

A verification development over `app.go`.  Go strings are byte sequences; the
codepoints of a string are the runes that a `range` loop (equivalently
`utf8.DecodeRuneInString`) yields, an invalid byte yielding `U+FFFD`.  Go maps
are association lists with unique keys; an absent key reads as `0`.  Counts are
Go `int`s; they are modelled as unbounded integers, because a counter that grows
by one per request cannot reach `2^63`.

The tables of `unicode.IsSpace` and `unicode.IsPunct` are arguments of the
frequency analyzer.  `storeStatistics` and `loadStatistics` call `encoding/json`
and bolt, which are libraries; their behaviour on a `map[string]int` and on one
bucket is written out here after the Go sources of those packages.  The use of
`seenStringsMutex` is described by the sequence of lock operations and accesses
to the shared variables that each function makes, in program order.
-/

namespace Stringinator

/-! ## Go strings and UTF-8 -/

/-- One byte of a Go string. -/
abbrev Byte := Fin 256

/-- Go `string`: an immutable sequence of bytes, not necessarily valid UTF-8. -/
abbrev GoString := List Byte

/-- Go `rune`: a Unicode codepoint, as a number. -/
abbrev Rune := Nat

/-- Go `utf8.RuneError`, the replacement character `U+FFFD`. -/
def RuneError : Nat := 0xFFFD

/-- Continuation byte test: within `locb..hicb` of package `utf8`. -/
def isCont (b : Nat) : Bool := 0x80 ≤ b && b ≤ 0xBF

/-- Go `utf8.DecodeRuneInString`: the first rune of `s` and its width in bytes.
The empty string gives `(RuneError, 0)`, an invalid encoding `(RuneError, 1)`.
The cases on the first byte follow the `first` and `acceptRanges` tables. -/
def decodeRune (s : GoString) : Nat × Nat :=
  match s with
  | [] => (RuneError, 0)
  | s0 :: rest =>
    let b0 := s0.val
    if b0 < 0x80 then (b0, 1)
    else if b0 < 0xC2 then (RuneError, 1)
    else if b0 < 0xE0 then
      -- two bytes, second in 0x80..0xBF
      match rest with
      | s1 :: _ =>
        if isCont s1.val then ((b0 % 0x20) * 0x40 + s1.val % 0x40, 2)
        else (RuneError, 1)
      | _ => (RuneError, 1)
    else if b0 < 0xF0 then
      -- three bytes; 0xE0 needs a second byte from 0xA0, 0xED one up to 0x9F
      match rest with
      | s1 :: s2 :: _ =>
        let lo := if b0 = 0xE0 then 0xA0 else 0x80
        let hi := if b0 = 0xED then 0x9F else 0xBF
        if s1.val < lo || hi < s1.val then (RuneError, 1)
        else if !isCont s2.val then (RuneError, 1)
        else ((b0 % 0x10) * 0x1000 + (s1.val % 0x40) * 0x40 + s2.val % 0x40, 3)
      | _ => (RuneError, 1)
    else if b0 < 0xF5 then
      -- four bytes; 0xF0 needs a second byte from 0x90, 0xF4 one up to 0x8F
      match rest with
      | s1 :: s2 :: s3 :: _ =>
        let lo := if b0 = 0xF0 then 0x90 else 0x80
        let hi := if b0 = 0xF4 then 0x8F else 0xBF
        if s1.val < lo || hi < s1.val then (RuneError, 1)
        else if !isCont s2.val then (RuneError, 1)
        else if !isCont s3.val then (RuneError, 1)
        else ((b0 % 0x08) * 0x40000 + (s1.val % 0x40) * 0x1000
                + (s2.val % 0x40) * 0x40 + s3.val % 0x40, 4)
      | _ => (RuneError, 1)
    else (RuneError, 1)

/-- The loop `for _, char := range s`, with the number of bytes as fuel: each
step consumes the width of the decoded rune, which is at least one byte. -/
def runesAux : Nat → GoString → List Rune
  | 0, _ => []
  | _ + 1, [] => []
  | fuel + 1, b :: bs =>
    (decodeRune (b :: bs)).1 :: runesAux fuel ((b :: bs).drop (decodeRune (b :: bs)).2)

/-- The runes that `for _, char := range s` visits, in order. -/
def runes (s : GoString) : List Rune := runesAux s.length s

/-- Go `utf8.RuneCountInString`: the number of runes, an invalid byte counting
as one rune of width one. -/
def RuneCountInString (s : GoString) : Nat := (runes s).length

/-- Go `len(s)` for a string: the number of bytes. -/
def len (s : GoString) : Nat := s.length

/-- A byte from a number that is known to fit. -/
def byte (n : Nat) : Byte := Fin.ofNat n

/-- Go `string(r)` for a rune (`utf8.AppendRune`): the UTF-8 encoding, with
surrogates and out-of-range values encoded as `U+FFFD`. -/
def runeToString (r : Nat) : GoString :=
  if r < 0x80 then [byte r]
  else if r < 0x800 then [byte (0xC0 + r / 0x40), byte (0x80 + r % 0x40)]
  else if (0xD800 ≤ r && r ≤ 0xDFFF) || 0x10FFFF < r then [0xEF, 0xBF, 0xBD]
  else if r < 0x10000 then
    [byte (0xE0 + r / 0x1000), byte (0x80 + r / 0x40 % 0x40), byte (0x80 + r % 0x40)]
  else
    [byte (0xF0 + r / 0x40000), byte (0x80 + r / 0x1000 % 0x40),
     byte (0x80 + r / 0x40 % 0x40), byte (0x80 + r % 0x40)]

/-- A Unicode scalar value: a codepoint that is not a surrogate. -/
def validRune (r : Nat) : Prop := r < 0xD800 ∨ (0xE000 ≤ r ∧ r ≤ 0x10FFFF)

/-- Go `utf8.ValidString`, with the number of bytes as fuel: no position decodes
to an encoding error. -/
def validAux : Nat → GoString → Bool
  | 0, _ => true
  | _ + 1, [] => true
  | fuel + 1, b :: bs =>
    !(decide ((decodeRune (b :: bs)).1 = RuneError ∧ (decodeRune (b :: bs)).2 = 1))
      && validAux fuel ((b :: bs).drop (decodeRune (b :: bs)).2)

/-- Go `utf8.ValidString`. -/
def ValidString (s : GoString) : Bool := validAux s.length s

/-! ## Go maps -/

/-- Go `map[K]int`: the entries in some order, every key at most once. -/
abbrev GoMap (κ : Type) := List (κ × Int)

/-- Go `m[k]` as an expression: the stored value, or `0` for an absent key. -/
def GoMap.get {κ : Type} [DecidableEq κ] : GoMap κ → κ → Int
  | [], _ => 0
  | (k', v) :: rest, k => if k' = k then v else GoMap.get rest k

/-- Go `m[k] = v`: overwrite the entry for `k`, or add one. -/
def GoMap.set {κ : Type} [DecidableEq κ] : GoMap κ → κ → Int → GoMap κ
  | [], k, v => [(k, v)]
  | (k', v') :: rest, k, v =>
    if k' = k then (k, v) :: rest else (k', v') :: GoMap.set rest k v

/-- The keys of a map. -/
def GoMap.keys {κ : Type} (m : GoMap κ) : List κ := m.map Prod.fst

/-! ## The statistics aggregate -/

/-- The package-level variables `seenStrings`, `mostPopularInput` and
`longestInput`. -/
structure State where
  seenStrings : GoMap GoString
  mostPopularInput : GoString
  longestInput : GoString
  deriving DecidableEq, Repr

/-- The state at process start: `make(map[string]int)` and two empty strings. -/
def State.empty : State := ⟨[], [], []⟩

/-- Function `remember`. -/
def remember (st : State) (input : GoString) : State :=
  let seen :=
    if st.seenStrings.get input = 0 then st.seenStrings.set input 1
    else st.seenStrings.set input (st.seenStrings.get input + 1)
  let mostPopular :=
    if seen.get input > seen.get st.mostPopularInput then input else st.mostPopularInput
  let longest :=
    if RuneCountInString input > RuneCountInString st.longestInput then input
    else st.longestInput
  ⟨seen, mostPopular, longest⟩

/-- The in-memory part of `resetStatistics`. -/
def resetStatistics (_st : State) : State := ⟨[], [], []⟩

/-- Calls `remember` on each input in turn. -/
def rememberAll (st : State) (inputs : List GoString) : State :=
  inputs.foldl remember st

/-- One request that changes the aggregate. -/
inductive Op where
  | remember (input : GoString)
  | reset
  deriving DecidableEq, Repr

/-- The state change of one operation. -/
def Op.apply (st : State) : Op → State
  | .remember input => Stringinator.remember st input
  | .reset => resetStatistics st

/-- Runs a sequence of operations. -/
def runOps (st : State) (ops : List Op) : State := ops.foldl Op.apply st

/-- The reply of `stats` (type `StatsData`). -/
structure StatsData where
  Inputs : GoMap GoString
  MostPopular : GoString
  LongestInput : GoString
  LongestInputLen : Nat
  deriving DecidableEq, Repr

/-- The body of the loop in `stats`. -/
def scanStep (acc e : GoString × Int) : GoString × Int :=
  if e.2 > acc.2 then (e.1, e.2) else acc

/-- The loop of `stats` over the entries of `seenStrings`, in the order `visit`
in which `range` happens to visit them: the pair `(mostPopular,
mostPopularCount)` after the loop. -/
def statsScan (visit : List (GoString × Int)) : GoString × Int :=
  visit.foldl scanStep ([], 0)

/-- Function `stats`.  Go leaves the iteration order of a map unspecified, so
the order `visit` of the entries of `seenStrings` is an argument. -/
def stats (st : State) (visit : List (GoString × Int)) : StatsData :=
  { Inputs := st.seenStrings
    MostPopular := (statsScan visit).1
    LongestInput := st.longestInput
    LongestInputLen := RuneCountInString st.longestInput }

/-! ## The character frequency analyzer -/

/-- The variables of the loop in `calculateMostFrequent`. -/
structure FreqState where
  charCount : GoMap Rune
  maxChar : GoString
  maxCount : Int
  deriving DecidableEq, Repr

/-- One iteration of the loop in `calculateMostFrequent`.  The tables behind
`unicode.IsSpace` and `unicode.IsPunct` are arguments. -/
def freqStep (isSpace isPunct : Rune → Bool) (fs : FreqState) (char : Rune) : FreqState :=
  if isSpace char || isPunct char then fs
  else
    let charCount := fs.charCount.set char (fs.charCount.get char + 1)
    if charCount.get char > fs.maxCount then
      ⟨charCount, runeToString char, charCount.get char⟩
    else ⟨charCount, fs.maxChar, fs.maxCount⟩

/-- The loop of `calculateMostFrequent` over the runes of the input. -/
def freqLoop (isSpace isPunct : Rune → Bool) (rs : List Rune) : FreqState :=
  rs.foldl (freqStep isSpace isPunct) ⟨[], [], 0⟩

/-- Function `calculateMostFrequent`. -/
def calculateMostFrequent (isSpace isPunct : Rune → Bool) (input : GoString) :
    GoString × Int :=
  let fs := freqLoop isSpace isPunct (runes input)
  (fs.maxChar, fs.maxCount)

/-- Go `unicode.IsSpace`: the codepoints with the `White_Space` property. -/
def unicodeIsSpace (r : Rune) : Bool :=
  (0x09 ≤ r && r ≤ 0x0D) || r = 0x20 || r = 0x85 || r = 0xA0 || r = 0x1680
    || (0x2000 ≤ r && r ≤ 0x200A) || r = 0x2028 || r = 0x2029 || r = 0x202F
    || r = 0x205F || r = 0x3000

/-- Go `unicode.IsPunct` on ASCII: the ASCII codepoints of category `P`.  Above
ASCII this table is not listed here and gives `false`. -/
def asciiIsPunct (r : Rune) : Bool :=
  r ∈ [0x21, 0x22, 0x23, 0x25, 0x26, 0x27, 0x28, 0x29, 0x2A, 0x2C, 0x2D, 0x2E, 0x2F,
       0x3A, 0x3B, 0x3F, 0x40, 0x5B, 0x5C, 0x5D, 0x5F, 0x7B, 0x7D]

/-! ## Persistence: `encoding/json` on `map[string]int` and the bolt bucket -/

/-- The table `hex` of package `json`: the lower-case hexadecimal digit of a
number below 16. -/
def hexDigit (n : Nat) : Byte := if n < 10 then byte (0x30 + n) else byte (0x57 + n)

/-- The table `htmlSafeSet` of package `json`: the ASCII bytes written as they
are, that is all from the space on except `"`, `\`, `<`, `>` and `&`. -/
def htmlSafe (b : Nat) : Bool :=
  0x20 ≤ b && b < 0x80 && b != 0x22 && b != 0x5C && b != 0x3C && b != 0x3E && b != 0x26

/-- The escape that `appendString` writes for an ASCII byte outside
`htmlSafeSet`: `\\`, `\"`, `\b`, `\f`, `\n`, `\r`, `\t`, or `\u00XX`.  (Go before
1.22 writes `\u0008` and `\u000c` for `\b` and `\f`; both forms read back the
same.) -/
def escapeByte (b : Byte) : List Byte :=
  if b = 0x5C ∨ b = 0x22 then [0x5C, b]
  else if b = 0x08 then [0x5C, 0x62]
  else if b = 0x0C then [0x5C, 0x66]
  else if b = 0x0A then [0x5C, 0x6E]
  else if b = 0x0D then [0x5C, 0x72]
  else if b = 0x09 then [0x5C, 0x74]
  else [0x5C, 0x75, 0x30, 0x30, hexDigit (b.val / 16), hexDigit (b.val % 16)]

/-- The loop of `appendString` of package `json` (with `escapeHTML` set, as
`json.Marshal` does), with the number of bytes as fuel.  An invalid byte is
written as the escape of `U+FFFD`, `U+2028` and `U+2029` as escapes, every other rune as its
own bytes. -/
def appendStringAux : Nat → GoString → List Byte
  | 0, _ => []
  | _ + 1, [] => []
  | fuel + 1, b :: bs =>
    if b.val < 0x80 then
      (if htmlSafe b.val then [b] else escapeByte b) ++ appendStringAux fuel bs
    else if (decodeRune (b :: bs)).1 = RuneError ∧ (decodeRune (b :: bs)).2 = 1 then
      [0x5C, 0x75, 0x66, 0x66, 0x66, 0x64] ++ appendStringAux fuel bs
    else if (decodeRune (b :: bs)).1 = 0x2028 ∨ (decodeRune (b :: bs)).1 = 0x2029 then
      [0x5C, 0x75, 0x32, 0x30, 0x32, hexDigit ((decodeRune (b :: bs)).1 % 16)]
        ++ appendStringAux fuel ((b :: bs).drop (decodeRune (b :: bs)).2)
    else
      (b :: bs).take (decodeRune (b :: bs)).2
        ++ appendStringAux fuel ((b :: bs).drop (decodeRune (b :: bs)).2)

/-- Go `appendString` of package `json`: a string as a JSON string literal. -/
def appendString (s : GoString) : List Byte :=
  0x22 :: (appendStringAux s.length s ++ [0x22])

/-- The decimal digits of a number, most significant first; the fuel bounds the
number of digits. -/
def natDigits : Nat → Nat → List Byte
  | 0, _ => []
  | fuel + 1, n =>
    if n < 10 then [byte (0x30 + n)]
    else natDigits fuel (n / 10) ++ [byte (0x30 + n % 10)]

/-- Go `strconv.AppendInt(_, n, 10)`: the decimal text of an integer. -/
def formatInt (n : Int) : List Byte :=
  if n < 0 then 0x2D :: natDigits ((-n).toNat + 1) (-n).toNat
  else natDigits (n.toNat + 1) n.toNat

/-- Go `strings.Compare(a, b) < 0`: byte-wise lexicographic order. -/
def strLt : GoString → GoString → Bool
  | [], [] => false
  | [], _ :: _ => true
  | _ :: _, [] => false
  | a :: as, b :: bs => a.val < b.val || (a.val = b.val && strLt as bs)

/-- The order in which `mapEncoder.encode` writes the entries: by key. -/
def keyLE (a b : GoString × Int) : Prop := strLt b.1 a.1 = false

instance : DecidableRel keyLE := fun a b => by unfold keyLE; infer_instance

/-- The members of a JSON object, separated by commas. -/
def encodeMembers : List (GoString × Int) → List Byte
  | [] => []
  | [e] => appendString e.1 ++ 0x3A :: formatInt e.2
  | e :: rest => appendString e.1 ++ 0x3A :: formatInt e.2 ++ 0x2C :: encodeMembers rest

/-- Go `json.Marshal` on a non-nil `map[string]int` (`mapEncoder.encode`): the
entries sorted by key, each as `"key":count`, between braces.  It cannot fail. -/
def jsonMarshal (m : GoMap GoString) : List Byte :=
  0x7B :: (encodeMembers (m.insertionSort keyLE) ++ [0x7D])

/-- JSON insignificant whitespace (`isSpace` of package `json`). -/
def isJSONSpace (b : Byte) : Bool := b = 0x20 || b = 0x09 || b = 0x0D || b = 0x0A

/-- Skips JSON whitespace. -/
def skipSpace : List Byte → List Byte
  | [] => []
  | b :: bs => if isJSONSpace b then skipSpace bs else b :: bs

/-- The value of a hexadecimal digit, in either case. -/
def hexVal (b : Byte) : Option Nat :=
  if 0x30 ≤ b.val ∧ b.val ≤ 0x39 then some (b.val - 0x30)
  else if 0x61 ≤ b.val ∧ b.val ≤ 0x66 then some (b.val - 0x61 + 10)
  else if 0x41 ≤ b.val ∧ b.val ≤ 0x46 then some (b.val - 0x41 + 10)
  else none

/-- Go `getu4` of package `json`: the number in a leading `\uXXXX`, if the text
starts with one. -/
def getu4 : List Byte → Option Nat
  | c :: u :: h3 :: h2 :: h1 :: h0 :: _ =>
    if c = 0x5C ∧ u = 0x75 then
      match hexVal h3, hexVal h2, hexVal h1, hexVal h0 with
      | some a, some b, some c, some d => some (a * 0x1000 + b * 0x100 + c * 0x10 + d)
      | _, _, _, _ => none
    else none
  | _ => none

/-- Puts bytes in front of the string of a partial result. -/
def prepend (bs : List Byte) : Option (GoString × List Byte) → Option (GoString × List Byte)
  | some (s, rest) => some (bs ++ s, rest)
  | none => none

/-- The text after the opening quote of a JSON string literal: the string it
denotes and the text after the closing quote, as the scanner and `unquoteBytes`
of package `json` compute them.  Escapes are resolved, a surrogate pair of
`\u` escapes is joined, a lone surrogate and an invalid byte become `U+FFFD`; a
control byte, an unknown escape or a missing closing quote is an error. -/
def unquoteAux : Nat → List Byte → Option (GoString × List Byte)
  | 0, _ => none
  | _ + 1, [] => none
  | fuel + 1, c :: rest =>
    if c = 0x22 then some ([], rest)
    else if c = 0x5C then
      match rest with
      | [] => none
      | e :: rest1 =>
        if e = 0x22 ∨ e = 0x5C ∨ e = 0x2F then prepend [e] (unquoteAux fuel rest1)
        else if e = 0x62 then prepend [0x08] (unquoteAux fuel rest1)
        else if e = 0x66 then prepend [0x0C] (unquoteAux fuel rest1)
        else if e = 0x6E then prepend [0x0A] (unquoteAux fuel rest1)
        else if e = 0x72 then prepend [0x0D] (unquoteAux fuel rest1)
        else if e = 0x74 then prepend [0x09] (unquoteAux fuel rest1)
        else if e = 0x75 then
          match getu4 (c :: rest) with
          | none => none
          | some rr =>
            if 0xD800 ≤ rr ∧ rr < 0xE000 then
              match getu4 (rest.drop 5) with
              | some rr1 =>
                if rr < 0xDC00 ∧ 0xDC00 ≤ rr1 ∧ rr1 < 0xE000 then
                  prepend (runeToString ((rr - 0xD800) * 0x400 + (rr1 - 0xDC00) + 0x10000))
                    (unquoteAux fuel (rest.drop 11))
                else prepend (runeToString RuneError) (unquoteAux fuel (rest.drop 5))
              | none => prepend (runeToString RuneError) (unquoteAux fuel (rest.drop 5))
            else prepend (runeToString rr) (unquoteAux fuel (rest.drop 5))
        else none
    else if c.val < 0x20 then none
    else if c.val < 0x80 then prepend [c] (unquoteAux fuel rest)
    else
      prepend (runeToString (decodeRune (c :: rest)).1)
        (unquoteAux fuel ((c :: rest).drop (decodeRune (c :: rest)).2))

/-- Whether a byte is a decimal digit. -/
def isDigit (b : Byte) : Bool := 0x30 ≤ b.val && b.val ≤ 0x39

/-- The number that a run of decimal digits denotes, continuing from `acc`, and
the text after the run. -/
def parseDigits : List Byte → Nat → Nat × List Byte
  | [], acc => (acc, [])
  | b :: bs, acc =>
    if isDigit b then parseDigits bs (acc * 10 + (b.val - 0x30)) else (acc, b :: bs)

/-- An unsigned JSON integer: `0`, or digits that do not start with `0`; a
fraction or exponent after it is not an integer. -/
def parseNatLit : List Byte → Option (Nat × List Byte)
  | [] => none
  | b :: bs =>
    if !isDigit b then none
    else
      let r := if b = 0x30 then ((0 : Nat), bs) else parseDigits (b :: bs) 0
      match r.2 with
      | [] => some r
      | c :: _ =>
        if isDigit c ∨ c = 0x2E ∨ c = 0x65 ∨ c = 0x45 then none else some r

/-- A JSON number stored into an `int` (`literalStore` with `strconv.ParseInt`):
an optional minus sign and an unsigned integer. -/
def parseIntLit : List Byte → Option (Int × List Byte)
  | [] => none
  | b :: bs =>
    if b = 0x2D then
      match parseNatLit bs with
      | some (n, rest) => some (-(n : Int), rest)
      | none => none
    else
      match parseNatLit (b :: bs) with
      | some (n, rest) => some ((n : Int), rest)
      | none => none

/-- The members of a JSON object from the opening quote of a key on, stored
into the map one after the other (`d.object` on a map); a later entry for the
same key overwrites the earlier.  The result is the map and the text after the
closing brace. -/
def parseMembers : Nat → List Byte → GoMap GoString → Option (GoMap GoString × List Byte)
  | 0, _, _ => none
  | fuel + 1, input, m =>
    match skipSpace input with
    | [] => none
    | q :: rest =>
      if q = 0x22 then
        match unquoteAux (rest.length + 1) rest with
        | none => none
        | some (key, rest1) =>
          match skipSpace rest1 with
          | [] => none
          | colon :: rest2 =>
            if colon = 0x3A then
              match parseIntLit (skipSpace rest2) with
              | none => none
              | some (v, rest3) =>
                match skipSpace rest3 with
                | [] => none
                | sep :: rest4 =>
                  if sep = 0x2C then parseMembers fuel rest4 (m.set key v)
                  else if sep = 0x7D then some (m.set key v, rest4)
                  else none
            else none
      else none

/-- Go `json.Unmarshal(data, &m)` for a non-nil `m` of type `map[string]int`, on
the texts that are a JSON object whose values are integers: the entries are
stored into `m`, entries already in `m` under other keys stay.  `none` is the
error case, in which `loadStatistics` gives up: a text that is not JSON, such as
the empty text of an absent key.  Texts that are JSON of another shape (`null`,
values that are not integers) are outside this model and also give `none`. -/
def jsonUnmarshal (data : List Byte) (m : GoMap GoString) : Option (GoMap GoString) :=
  match skipSpace data with
  | [] => none
  | open_ :: rest =>
    if open_ = 0x7B then
      match skipSpace rest with
      | [] => none
      | c :: rest1 =>
        if c = 0x7D then (if skipSpace rest1 = [] then some m else none)
        else
          match parseMembers (data.length + 1) rest m with
          | some (m1, rest2) => if skipSpace rest2 = [] then some m1 else none
          | none => none
    else none

/-- The bucket `stats` of the bolt database: keys with their values. -/
abbrev Bucket := List (GoString × List Byte)

/-- Bolt `Bucket.Get`: the value under a key, empty (`nil`) when absent. -/
def Bucket.get : Bucket → GoString → List Byte
  | [], _ => []
  | (k', v) :: rest, k => if k' = k then v else Bucket.get rest k

/-- Bolt `Bucket.Put`: stores a value under a key, overwriting. -/
def Bucket.put : Bucket → GoString → List Byte → Bucket
  | [], k, v => [(k, v)]
  | (k', v') :: rest, k, v =>
    if k' = k then (k, v) :: rest else (k', v') :: Bucket.put rest k v

/-- The key `"statistics"`. -/
def statisticsKey : GoString :=
  [0x73, 0x74, 0x61, 0x74, 0x69, 0x73, 0x74, 0x69, 0x63, 0x73]

/-- Function `storeStatistics`: the bucket after the update transaction. -/
def storeStatistics (st : State) (db : Bucket) : Bucket :=
  db.put statisticsKey (jsonMarshal st.seenStrings)

/-- Function `loadStatistics`: the state after the view transaction.  An error
of `json.Unmarshal` is returned to bolt and dropped. -/
def loadStatistics (db : Bucket) (st : State) : State :=
  match jsonUnmarshal (db.get statisticsKey) st.seenStrings with
  | some m => { st with seenStrings := m }
  | none => st

/-! ## The lock around the aggregate -/

/-- The package-level variables that `seenStringsMutex` is meant to guard. -/
inductive SharedVar where
  | seenStrings
  | mostPopularInput
  | longestInput
  deriving DecidableEq, Repr

/-- What a function does to `seenStringsMutex` and to the shared variables. -/
inductive Event where
  | lock
  | unlock
  | rlock
  | runlock
  | read (v : SharedVar)
  | write (v : SharedVar)
  deriving DecidableEq, Repr

/-- How the running function holds `seenStringsMutex`. -/
inductive Held where
  | none
  | shared
  | exclusive
  deriving DecidableEq, Repr

/-- Whether every access in a sequence of events is made under the mutex: a
read while it is held in either mode, a write while it is held exclusively. -/
def guarded : Held → List Event → Bool
  | _, [] => true
  | _, .lock :: rest => guarded .exclusive rest
  | _, .unlock :: rest => guarded .none rest
  | _, .rlock :: rest => guarded .shared rest
  | _, .runlock :: rest => guarded .none rest
  | h, .read _ :: rest => h != .none && guarded h rest
  | h, .write _ :: rest => h == .exclusive && guarded h rest

/-- The events of `remember`, in program order (lines 156-169): `Lock`, the
test and update of `seenStrings[input]`, the comparison with and assignment to
`mostPopularInput`, the same for `longestInput`, and the deferred `Unlock`. -/
def rememberEvents : List Event :=
  [.lock, .read .seenStrings, .write .seenStrings,
   .read .seenStrings, .read .mostPopularInput, .write .mostPopularInput,
   .read .longestInput, .write .longestInput, .unlock]

/-- The events of `resetStatistics` (lines 254-260). -/
def resetStatisticsEvents : List Event :=
  [.lock, .write .seenStrings, .write .mostPopularInput, .write .longestInput, .unlock]

/-- The events of `stats` (lines 279-297): `RLock`, the scan of `seenStrings`,
the reply built from `seenStrings` and `longestInput`, the deferred `RUnlock`. -/
def statsEvents : List Event :=
  [.rlock, .read .seenStrings, .read .seenStrings, .read .longestInput,
   .read .longestInput, .runlock]

/-- The events of `storeStatistics` (lines 96-112): `json.Marshal(seenStrings)`
reads the map; the function never touches `seenStringsMutex`. -/
def storeStatisticsEvents : List Event := [.read .seenStrings]

/-- The events of `stringinate` (lines 198-204): `remember`, then
`storeStatistics`, called after `remember` has returned and released the lock. -/
def stringinateEvents : List Event := rememberEvents ++ storeStatisticsEvents

/-! ## Definitions used in the statements -/

/-- What every state reached by `remember` and reset satisfies: keys are unique
and every stored count is at least one. -/
def WellFormed (st : State) : Prop :=
  st.seenStrings.keys.Nodup ∧ ∀ e ∈ st.seenStrings, 1 ≤ e.2

/-- The count `c` is the maximum of the counts stored in `m`: some entry has it
and no entry exceeds it. -/
def IsMaxCount (m : GoMap GoString) (c : Int) : Prop :=
  (∃ e ∈ m, e.2 = c) ∧ ∀ e ∈ m, e.2 ≤ c

/-- The invariant of `mostPopularInput`: no string has a greater count, and it
is empty while the map is. -/
def PopularInv (st : State) : Prop :=
  WellFormed st ∧ (∀ s, st.seenStrings.get s ≤ st.seenStrings.get st.mostPopularInput)
    ∧ (st.seenStrings = [] → st.mostPopularInput = [])

/-- The strings recorded since the last reset, oldest first. -/
def sinceReset (ops : List Op) : List GoString :=
  ops.foldl (fun acc op => match op with
    | .remember input => acc ++ [input]
    | .reset => []) []

/-- The greatest rune count among the strings of a list, `0` for none. -/
def maxRuneCount (inputs : List GoString) : Nat :=
  (inputs.map RuneCountInString).foldl max 0

/-- The greatest number of occurrences of any string of the list, `0` for the
empty list. -/
def maxOccurrences (inputs : List GoString) : Nat :=
  (inputs.map (fun s => inputs.count s)).foldl max 0

/-- A rune that `calculateMostFrequent` tallies: neither space nor punctuation. -/
def qualifying (isSpace isPunct : Rune → Bool) (r : Rune) : Bool :=
  !(isSpace r || isPunct r)

/-- The greatest number of occurrences of a qualifying rune, `0` when there is
no qualifying rune. -/
def maxTally (isSpace isPunct : Rune → Bool) (rs : List Rune) : Nat :=
  ((rs.filter (qualifying isSpace isPunct)).map (fun r => rs.count r)).foldl max 0

/-- The value of a run of digits read after `acc`. -/
def digitsValue (ds : List Byte) (acc : Nat) : Nat :=
  ds.foldl (fun a b => a * 10 + (b.val - 0x30)) acc

/-- Stores the entries of a list into a map, first to last. -/
def storeAll (m : GoMap GoString) (l : List (GoString × Int)) : GoMap GoString :=
  l.foldl (fun acc e => acc.set e.1 e.2) m

/-! ## Lemmas on maps -/

section MapLemmas

variable {κ : Type} [DecidableEq κ]

theorem GoMap.get_set_self (m : GoMap κ) (k : κ) (v : Int) : (m.set k v).get k = v := by
  induction m with
  | nil => simp [GoMap.set, GoMap.get]
  | cons e rest ih =>
    obtain ⟨k', v'⟩ := e
    by_cases h : k' = k <;> simp [GoMap.set, GoMap.get, h, ih]

theorem GoMap.get_set_ne (m : GoMap κ) {k k' : κ} (v : Int) (h : k' ≠ k) :
    (m.set k v).get k' = m.get k' := by
  induction m with
  | nil => simp [GoMap.set, GoMap.get, Ne.symm h]
  | cons e rest ih =>
    obtain ⟨k₀, v₀⟩ := e
    by_cases h₀ : k₀ = k
    · subst h₀; simp [GoMap.set, GoMap.get, Ne.symm h]
    · by_cases h₁ : k₀ = k'
      · subst h₁; simp [GoMap.set, GoMap.get, h₀]
      · simp [GoMap.set, GoMap.get, h₀, h₁, ih]

theorem GoMap.get_set (m : GoMap κ) (k k' : κ) (v : Int) :
    (m.set k v).get k' = if k' = k then v else m.get k' := by
  by_cases h : k' = k
  · subst h; simp [GoMap.get_set_self]
  · simp [h, GoMap.get_set_ne m v h]

theorem GoMap.mem_keys_set (m : GoMap κ) (k k' : κ) (v : Int) :
    k' ∈ (m.set k v).keys ↔ k' = k ∨ k' ∈ m.keys := by
  induction m with
  | nil => simp [GoMap.set, GoMap.keys]
  | cons e rest ih =>
    obtain ⟨k₀, v₀⟩ := e
    simp only [GoMap.keys] at ih
    by_cases h₀ : k₀ = k
    · subst h₀; simp [GoMap.set, GoMap.keys]
    · simp only [GoMap.set, h₀, if_false, GoMap.keys, List.map_cons, List.mem_cons, ih]
      tauto

theorem GoMap.nodup_keys_set (m : GoMap κ) (k : κ) (v : Int) (h : m.keys.Nodup) :
    (m.set k v).keys.Nodup := by
  induction m with
  | nil => simp [GoMap.set, GoMap.keys]
  | cons e rest ih =>
    obtain ⟨k₀, v₀⟩ := e
    have hk : k₀ ∉ GoMap.keys rest ∧ (GoMap.keys rest).Nodup := by
      simpa [GoMap.keys] using h
    by_cases h₀ : k₀ = k
    · subst h₀; simpa [GoMap.set, GoMap.keys] using h
    · have hmem := GoMap.mem_keys_set rest k k₀ v
      have ih' := ih hk.2
      simp only [GoMap.keys] at hmem ih' hk
      simp only [GoMap.set, h₀, if_false, GoMap.keys, List.map_cons, List.nodup_cons]
      exact ⟨by rw [hmem]; tauto, ih'⟩

theorem GoMap.mem_set (m : GoMap κ) (k : κ) (v : Int) (e : κ × Int)
    (h : e ∈ m.set k v) : e = (k, v) ∨ e ∈ m := by
  induction m with
  | nil => simpa [GoMap.set] using h
  | cons e₀ rest ih =>
    obtain ⟨k₀, v₀⟩ := e₀
    by_cases h₀ : k₀ = k
    · simp only [GoMap.set, h₀, if_true, List.mem_cons] at h
      rcases h with h | h
      · exact Or.inl h
      · exact Or.inr (List.mem_cons_of_mem _ h)
    · simp only [GoMap.set, h₀, if_false, List.mem_cons] at h
      rcases h with h | h
      · exact Or.inr (by simp [h])
      · rcases ih h with h | h
        · exact Or.inl h
        · exact Or.inr (List.mem_cons_of_mem _ h)

theorem GoMap.get_of_mem (m : GoMap κ) (h : m.keys.Nodup) (e : κ × Int) (he : e ∈ m) :
    m.get e.1 = e.2 := by
  induction m with
  | nil => simp at he
  | cons e₀ rest ih =>
    obtain ⟨k₀, v₀⟩ := e₀
    have hk : k₀ ∉ GoMap.keys rest ∧ (GoMap.keys rest).Nodup := by
      simpa [GoMap.keys] using h
    rcases List.mem_cons.1 he with he | he
    · subst he; simp [GoMap.get]
    · have hne : k₀ ≠ e.1 := by
        intro hEq
        apply hk.1
        rw [hEq]
        exact List.mem_map_of_mem Prod.fst he
      simp [GoMap.get, hne, ih hk.2 he]

theorem GoMap.mem_of_mem_keys (m : GoMap κ) (k : κ) (h : k ∈ m.keys) :
    (k, m.get k) ∈ m := by
  induction m with
  | nil => simp [GoMap.keys] at h
  | cons e₀ rest ih =>
    obtain ⟨k₀, v₀⟩ := e₀
    by_cases h₀ : k₀ = k
    · subst h₀; simp [GoMap.get]
    · have : k ∈ GoMap.keys rest := by
        have := h
        simp only [GoMap.keys, List.map_cons, List.mem_cons] at this
        rcases this with this | this
        · exact absurd this.symm h₀
        · exact this
      simp only [GoMap.get, h₀, if_false, List.mem_cons]
      exact Or.inr (ih this)

theorem GoMap.get_eq_zero_of_not_mem_keys (m : GoMap κ) (k : κ) (h : k ∉ m.keys) :
    m.get k = 0 := by
  induction m with
  | nil => simp [GoMap.get]
  | cons e₀ rest ih =>
    obtain ⟨k₀, v₀⟩ := e₀
    simp only [GoMap.keys, List.map_cons, List.mem_cons, not_or] at h
    have h₀ : k₀ ≠ k := fun hEq => h.1 hEq.symm
    simp only [GoMap.get, h₀, if_false]
    exact ih h.2

end MapLemmas

/-! ## Lemmas on `remember` -/

theorem remember_seen (st : State) (input : GoString) :
    (remember st input).seenStrings
      = st.seenStrings.set input (st.seenStrings.get input + 1) := by
  unfold remember
  by_cases h : st.seenStrings.get input = 0 <;> simp [h]

theorem remember_get (st : State) (input s : GoString) :
    (remember st input).seenStrings.get s
      = st.seenStrings.get s + (if s = input then 1 else 0) := by
  rw [remember_seen, GoMap.get_set]
  by_cases h : s = input
  · subst h; simp
  · simp [h]

theorem remember_mostPopular (st : State) (input : GoString) :
    (remember st input).mostPopularInput
      = if (remember st input).seenStrings.get input
            > (remember st input).seenStrings.get st.mostPopularInput
        then input else st.mostPopularInput := by
  simp only [remember_seen]
  unfold remember
  by_cases h : st.seenStrings.get input = 0 <;> simp [h]

theorem remember_longest (st : State) (input : GoString) :
    (remember st input).longestInput
      = if RuneCountInString input > RuneCountInString st.longestInput then input
        else st.longestInput := by
  unfold remember
  rfl

theorem rememberAll_cons (st : State) (x : GoString) (xs : List GoString) :
    rememberAll st (x :: xs) = rememberAll (remember st x) xs := rfl

theorem rememberAll_snoc (st : State) (xs : List GoString) (x : GoString) :
    rememberAll st (xs ++ [x]) = remember (rememberAll st xs) x := by
  simp [rememberAll, List.foldl_append]

theorem rememberAll_get (st : State) (inputs : List GoString) (s : GoString) :
    (rememberAll st inputs).seenStrings.get s
      = st.seenStrings.get s + (inputs.count s : Int) := by
  induction inputs generalizing st with
  | nil => simp [rememberAll]
  | cons x xs ih =>
    rw [rememberAll_cons, ih, remember_get, List.count_cons]
    by_cases h : s = x
    · subst h; simp; ring
    · have h' : ¬ (x = s) := fun e => h e.symm
      simp [h, h']

theorem rememberAll_mem_keys (st : State) (inputs : List GoString) (s : GoString) :
    s ∈ (rememberAll st inputs).seenStrings.keys
      ↔ s ∈ st.seenStrings.keys ∨ s ∈ inputs := by
  induction inputs generalizing st with
  | nil => simp [rememberAll]
  | cons x xs ih =>
    rw [rememberAll_cons, ih, remember_seen, GoMap.mem_keys_set, List.mem_cons]
    tauto

theorem GoMap.get_nonneg {κ : Type} [DecidableEq κ] (m : GoMap κ)
    (h : ∀ e ∈ m, 1 ≤ e.2) (k : κ) : 0 ≤ m.get k := by
  induction m with
  | nil => simp [GoMap.get]
  | cons e rest ih =>
    obtain ⟨k₀, v₀⟩ := e
    have h₀ : 1 ≤ v₀ := h (k₀, v₀) (List.mem_cons_self _ _)
    have hr : ∀ e ∈ rest, 1 ≤ e.2 := fun e he => h e (List.mem_cons_of_mem _ he)
    by_cases hk : k₀ = k
    · simp [GoMap.get, hk]; omega
    · simp [GoMap.get, hk, ih hr]

theorem wellFormed_empty : WellFormed State.empty := by
  simp [WellFormed, State.empty, GoMap.keys]

theorem wellFormed_remember (st : State) (input : GoString) (h : WellFormed st) :
    WellFormed (remember st input) := by
  refine ⟨?_, ?_⟩
  · rw [remember_seen]; exact GoMap.nodup_keys_set _ _ _ h.1
  · intro e he
    rw [remember_seen] at he
    rcases GoMap.mem_set _ _ _ _ he with he | he
    · have := GoMap.get_nonneg st.seenStrings h.2 input
      rw [he]; simp; omega
    · exact h.2 e he

theorem wellFormed_rememberAll (st : State) (inputs : List GoString) (h : WellFormed st) :
    WellFormed (rememberAll st inputs) := by
  induction inputs generalizing st with
  | nil => simpa [rememberAll] using h
  | cons x xs ih => rw [rememberAll_cons]; exact ih _ (wellFormed_remember st x h)

/-! ## C1: count accumulation -/

/-- C1.  From the empty state, after any sequence of `remember` calls the count
stored for a string is the number of its occurrences in the sequence; a string
is a key exactly when it occurs; every stored count is at least one and no key
is stored twice; and one `remember` call changes neither the count nor the
presence of any other key. -/
theorem count_accumulation :
    (∀ (inputs : List GoString) (s : GoString),
        (rememberAll State.empty inputs).seenStrings.get s = (inputs.count s : Int)
        ∧ (s ∈ (rememberAll State.empty inputs).seenStrings.keys ↔ s ∈ inputs))
    ∧ (∀ (inputs : List GoString),
        (∀ e ∈ (rememberAll State.empty inputs).seenStrings, 1 ≤ e.2)
        ∧ (rememberAll State.empty inputs).seenStrings.keys.Nodup)
    ∧ (∀ (st : State) (input k : GoString), k ≠ input →
        (remember st input).seenStrings.get k = st.seenStrings.get k
        ∧ (k ∈ (remember st input).seenStrings.keys ↔ k ∈ st.seenStrings.keys)) := by
  refine ⟨fun inputs s => ⟨?_, ?_⟩, fun inputs => ?_, fun st input k hk => ⟨?_, ?_⟩⟩
  · rw [rememberAll_get]; simp [State.empty, GoMap.get]
  · rw [rememberAll_mem_keys]; simp [State.empty, GoMap.keys]
  · have h := wellFormed_rememberAll State.empty inputs wellFormed_empty
    exact ⟨h.2, h.1⟩
  · rw [remember_get]; simp [hk]
  · rw [remember_seen, GoMap.mem_keys_set]; simp [hk]

/-- C1 at the inputs `"a"`, `"b"`, `"a"`: the count of `"a"` is two, and the
call `remember("b")` on the state after `"a"` leaves the count of `"a"` at one. -/
theorem count_accumulation_witness :
    (rememberAll State.empty [[0x61], [0x62], [0x61]]).seenStrings.get [0x61] = 2
    ∧ (remember (rememberAll State.empty [[0x61]]) [0x62]).seenStrings.get [0x61]
        = (rememberAll State.empty [[0x61]]).seenStrings.get [0x61] :=
  ⟨(count_accumulation.1 [[0x61], [0x62], [0x61]] [0x61]).1,
   (count_accumulation.2.2 (rememberAll State.empty [[0x61]]) [0x62] [0x61] (by decide)).1⟩

/-! ## C2: the most popular input -/

theorem GoMap.set_ne_nil {κ : Type} [DecidableEq κ] (m : GoMap κ) (k : κ) (v : Int) :
    m.set k v ≠ [] := by
  cases m with
  | nil => simp [GoMap.set]
  | cons e rest =>
    obtain ⟨k₀, v₀⟩ := e
    by_cases h : k₀ = k <;> simp [GoMap.set, h]

theorem popularInv_empty : PopularInv State.empty := by
  refine ⟨wellFormed_empty, ?_, ?_⟩ <;> simp [State.empty, GoMap.get]

theorem popularInv_remember (st : State) (input : GoString) (h : PopularInv st) :
    PopularInv (remember st input) := by
  obtain ⟨hwf, hmax, _⟩ := h
  refine ⟨wellFormed_remember st input hwf, ?_, ?_⟩
  · intro s
    rw [remember_mostPopular]
    have hs := remember_get st input s
    have hi := remember_get st input input
    have hm := remember_get st input st.mostPopularInput
    have h1 := hmax s
    have h2 := hmax input
    by_cases hgt : (remember st input).seenStrings.get input
        > (remember st input).seenStrings.get st.mostPopularInput
    · rw [if_pos hgt]
      by_cases hsi : s = input
      · rw [hsi]
      · simp only [hsi, if_false] at hs
        split at hm <;> omega
    · rw [if_neg hgt]
      by_cases hsi : s = input
      · rw [hsi]; omega
      · simp only [hsi, if_false] at hs
        split at hm <;> omega
  · intro hnil
    rw [remember_seen] at hnil
    exact absurd hnil (GoMap.set_ne_nil _ _ _)

theorem popularInv_runOps (ops : List Op) : PopularInv (runOps State.empty ops) := by
  induction ops using List.reverseRecOn with
  | nil => exact popularInv_empty
  | append_singleton ops op ih =>
    have : runOps State.empty (ops ++ [op]) = Op.apply (runOps State.empty ops) op := by
      simp [runOps, List.foldl_append]
    rw [this]
    cases op with
    | remember input => exact popularInv_remember _ input ih
    | reset => exact popularInv_empty

theorem popularInv_rememberAll (inputs : List GoString) :
    PopularInv (rememberAll State.empty inputs) := by
  induction inputs using List.reverseRecOn with
  | nil => exact popularInv_empty
  | append_singleton xs x ih => rw [rememberAll_snoc]; exact popularInv_remember _ x ih

theorem isMaxCount_of_popularInv (st : State) (h : PopularInv st)
    (hne : st.seenStrings ≠ []) :
    IsMaxCount st.seenStrings (st.seenStrings.get st.mostPopularInput) := by
  obtain ⟨⟨hnd, hpos⟩, hmax, _⟩ := h
  have hle : ∀ e ∈ st.seenStrings, e.2 ≤ st.seenStrings.get st.mostPopularInput := by
    intro e he
    rw [← GoMap.get_of_mem _ hnd e he]
    exact hmax e.1
  refine ⟨?_, hle⟩
  obtain ⟨e, he⟩ := List.exists_mem_of_ne_nil _ hne
  have h1 := hpos e he
  have h2 := hle e he
  have hkey : st.mostPopularInput ∈ st.seenStrings.keys := by
    by_contra hnot
    have := GoMap.get_eq_zero_of_not_mem_keys _ _ hnot
    omega
  exact ⟨_, GoMap.mem_of_mem_keys _ _ hkey, rfl⟩

/-- C2.  In every state reached from the empty state by `remember` calls and
resets, the count of `mostPopularInput` is the maximum stored count when the map
is not empty, and `mostPopularInput` is empty when the map is.  After `"a"` once
and `"bb"` three times, `mostPopularInput` is `"bb"` with count 3. -/
theorem most_popular_invariant :
    (∀ ops : List Op,
        ((runOps State.empty ops).seenStrings ≠ [] →
          IsMaxCount (runOps State.empty ops).seenStrings
            ((runOps State.empty ops).seenStrings.get (runOps State.empty ops).mostPopularInput))
        ∧ ((runOps State.empty ops).seenStrings = [] →
            (runOps State.empty ops).mostPopularInput = []))
    ∧ (runOps State.empty [.remember [0x61], .remember [0x62, 0x62],
          .remember [0x62, 0x62], .remember [0x62, 0x62]]).mostPopularInput = [0x62, 0x62]
    ∧ (runOps State.empty [.remember [0x61], .remember [0x62, 0x62],
          .remember [0x62, 0x62], .remember [0x62, 0x62]]).seenStrings.get [0x62, 0x62] = 3 := by
  refine ⟨fun ops => ⟨?_, ?_⟩, by decide, by decide⟩
  · exact isMaxCount_of_popularInv _ (popularInv_runOps ops)
  · exact (popularInv_runOps ops).2.2

/-- C2 at `"x"`, reset, `"y"`, `"y"`, `"z"`: the map is not empty and the count
of `mostPopularInput` is the maximum. -/
theorem most_popular_invariant_witness :
    IsMaxCount
      (runOps State.empty [.remember [0x78], .reset, .remember [0x79], .remember [0x79],
        .remember [0x7A]]).seenStrings
      ((runOps State.empty [.remember [0x78], .reset, .remember [0x79], .remember [0x79],
        .remember [0x7A]]).seenStrings.get
        (runOps State.empty [.remember [0x78], .reset, .remember [0x79], .remember [0x79],
          .remember [0x7A]]).mostPopularInput) :=
  (most_popular_invariant.1 [.remember [0x78], .reset, .remember [0x79], .remember [0x79],
    .remember [0x7A]]).1 (by decide)

/-! ## C3: the longest input -/

theorem maxRuneCount_snoc (xs : List GoString) (x : GoString) :
    maxRuneCount (xs ++ [x]) = max (maxRuneCount xs) (RuneCountInString x) := by
  simp [maxRuneCount, List.foldl_append]

theorem sinceReset_snoc_remember (ops : List Op) (input : GoString) :
    sinceReset (ops ++ [.remember input]) = sinceReset ops ++ [input] := by
  simp [sinceReset, List.foldl_append]

theorem sinceReset_snoc_reset (ops : List Op) :
    sinceReset (ops ++ [.reset]) = [] := by
  simp [sinceReset, List.foldl_append]

theorem runOps_snoc (st : State) (ops : List Op) (op : Op) :
    runOps st (ops ++ [op]) = Op.apply (runOps st ops) op := by
  simp [runOps, List.foldl_append]

theorem longest_runOps (ops : List Op) :
    RuneCountInString (runOps State.empty ops).longestInput = maxRuneCount (sinceReset ops)
    ∧ (sinceReset ops ≠ [] → (runOps State.empty ops).longestInput ∈ sinceReset ops)
    ∧ (sinceReset ops = [] → (runOps State.empty ops).longestInput = []) := by
  induction ops using List.reverseRecOn with
  | nil => simp [runOps, sinceReset, State.empty, maxRuneCount, RuneCountInString, runes, runesAux]
  | append_singleton ops op ih =>
    obtain ⟨ih1, ih2, ih3⟩ := ih
    rw [runOps_snoc]
    cases op with
    | reset =>
      rw [sinceReset_snoc_reset]
      simp [Op.apply, resetStatistics, maxRuneCount, RuneCountInString, runes, runesAux]
    | remember input =>
      rw [sinceReset_snoc_remember, maxRuneCount_snoc]
      simp only [Op.apply, remember_longest]
      refine ⟨?_, fun _ => ?_, fun h => by simp at h⟩
      · split <;> omega
      · by_cases hgt : RuneCountInString input
            > RuneCountInString (runOps State.empty ops).longestInput
        · simp [hgt]
        · rw [if_neg hgt]
          by_cases hnil : sinceReset ops = []
          · -- nothing recorded before: the longest so far is the empty string
            have h0 := ih3 hnil
            rw [h0] at hgt ⊢
            have hz : RuneCountInString input = 0 := by
              have e0 : RuneCountInString ([] : GoString) = 0 := rfl
              rw [e0] at hgt
              omega
            have : input = [] := by
              cases input with
              | nil => rfl
              | cons b bs => simp [RuneCountInString, runes, runesAux] at hz
            simp [this]
          · exact List.mem_append_left _ (ih2 hnil)

/-- C3.  In every state reached from the empty state by `remember` calls and
resets, the rune count of `longestInput` is the greatest rune count among the
strings recorded since the last reset, no recorded string has more runes,
`longestInput` is one of them, or empty when there is none, and `stats` reports
that rune count.  After the six-byte, five-rune `"héllo"` and then `"abc"`,
`longestInput` is `"héllo"` and the reported length is 5. -/
theorem longest_invariant :
    (∀ ops : List Op,
        RuneCountInString (runOps State.empty ops).longestInput
          = maxRuneCount (sinceReset ops)
        ∧ (∀ s ∈ sinceReset ops,
            RuneCountInString s ≤ RuneCountInString (runOps State.empty ops).longestInput)
        ∧ (sinceReset ops ≠ [] → (runOps State.empty ops).longestInput ∈ sinceReset ops)
        ∧ (sinceReset ops = [] → (runOps State.empty ops).longestInput = [])
        ∧ ∀ visit, (stats (runOps State.empty ops) visit).LongestInputLen
            = maxRuneCount (sinceReset ops))
    ∧ ((runOps State.empty [.remember [0x68, 0xC3, 0xA9, 0x6C, 0x6C, 0x6F],
          .remember [0x61, 0x62, 0x63]]).longestInput = [0x68, 0xC3, 0xA9, 0x6C, 0x6C, 0x6F]
      ∧ (stats (runOps State.empty [.remember [0x68, 0xC3, 0xA9, 0x6C, 0x6C, 0x6F],
          .remember [0x61, 0x62, 0x63]]) [([0x61, 0x62, 0x63], 1),
            ([0x68, 0xC3, 0xA9, 0x6C, 0x6C, 0x6F], 1)]).LongestInputLen = 5
      ∧ len [0x68, 0xC3, 0xA9, 0x6C, 0x6C, 0x6F] = 6
      ∧ RuneCountInString [0x61, 0x62, 0x63] = 3) := by
  refine ⟨fun ops => ?_, by decide⟩
  obtain ⟨h1, h2, h3⟩ := longest_runOps ops
  refine ⟨h1, ?_, h2, h3, fun visit => by simpa [stats] using h1⟩
  intro s hs
  rw [h1]
  -- every element of a list is below the maximum of the list
  have key : ∀ (l : List GoString) (x : GoString), x ∈ l →
      RuneCountInString x ≤ maxRuneCount l := by
    intro l
    induction l using List.reverseRecOn with
    | nil => intro x hx; simp at hx
    | append_singleton xs y ih =>
      intro x hx
      rw [maxRuneCount_snoc]
      rcases List.mem_append.1 hx with hx | hx
      · exact le_trans (ih x hx) (le_max_left _ _)
      · have : x = y := by simpa using hx
        rw [this]; exact le_max_right _ _
  exact key _ s hs

/-- C3 at `"ab"`, reset, `"c"`: the string recorded since the reset is the
longest input. -/
theorem longest_invariant_witness :
    (runOps State.empty [.remember [0x61, 0x62], .reset, .remember [0x63]]).longestInput
      ∈ sinceReset [.remember [0x61, 0x62], .reset, .remember [0x63]] :=
  (longest_invariant.1 [.remember [0x61, 0x62], .reset, .remember [0x63]]).2.2.1 (by decide)

/-! ## C4: the scan of `stats` against `mostPopularInput` -/

theorem statsScan_eq (visit : List (GoString × Int)) :
    statsScan visit = visit.foldl scanStep ([], 0) := rfl

theorem scan_unchanged (l : List (GoString × Int)) (acc : GoString × Int)
    (h : ∀ e ∈ l, e.2 ≤ acc.2) : l.foldl scanStep acc = acc := by
  induction l generalizing acc with
  | nil => rfl
  | cons e rest ih =>
    have he : e.2 ≤ acc.2 := h e (List.mem_cons_self _ _)
    have hstep : scanStep acc e = acc := by
      unfold scanStep
      rw [if_neg (by omega)]
    rw [List.foldl_cons, hstep]
    exact ih acc (fun e' he' => h e' (List.mem_cons_of_mem _ he'))

theorem scan_below (l : List (GoString × Int)) (acc : GoString × Int) (c : Int)
    (hacc : acc.2 < c) (h : ∀ e ∈ l, e.2 < c) : (l.foldl scanStep acc).2 < c := by
  induction l generalizing acc with
  | nil => simpa using hacc
  | cons e rest ih =>
    rw [List.foldl_cons]
    apply ih
    · unfold scanStep
      have he : e.2 < c := h e (List.mem_cons_self _ _)
      split <;> simp <;> omega
    · exact fun e' he' => h e' (List.mem_cons_of_mem _ he')

/-- The scan returns the first visited entry that has the maximum count. -/
theorem scan_first_max (pre post : List (GoString × Int)) (k : GoString) (c : Int)
    (acc : GoString × Int) (hacc : acc.2 < c) (hpre : ∀ e ∈ pre, e.2 < c)
    (hpost : ∀ e ∈ post, e.2 ≤ c) :
    (pre ++ (k, c) :: post).foldl scanStep acc = (k, c) := by
  rw [List.foldl_append, List.foldl_cons]
  have hb := scan_below pre acc c hacc hpre
  have hstep : scanStep (pre.foldl scanStep acc) (k, c) = (k, c) := by
    unfold scanStep
    rw [if_pos (by simpa using hb)]
  rw [hstep]
  exact scan_unchanged post (k, c) hpost

/-- A list with an entry of count `c` splits at the first such entry. -/
theorem split_first_count (l : List (GoString × Int)) (c : Int)
    (h : ∃ e ∈ l, e.2 = c) :
    ∃ pre k post, l = pre ++ (k, c) :: post ∧ ∀ e ∈ pre, e.2 ≠ c := by
  induction l with
  | nil => obtain ⟨e, he, _⟩ := h; simp at he
  | cons e₀ rest ih =>
    by_cases h₀ : e₀.2 = c
    · exact ⟨[], e₀.1, rest, by simp [← h₀], by simp⟩
    · have : ∃ e ∈ rest, e.2 = c := by
        obtain ⟨e, he, hc⟩ := h
        rcases List.mem_cons.1 he with he | he
        · rw [he] at hc; exact absurd hc h₀
        · exact ⟨e, he, hc⟩
      obtain ⟨pre, k, post, hl, hpre⟩ := ih this
      refine ⟨e₀ :: pre, k, post, by simp [hl], ?_⟩
      intro e he
      rcases List.mem_cons.1 he with he | he
      · rw [he]; exact h₀
      · exact hpre e he

/-- On the entries of a reachable state, in any order, the scan returns an entry
with the count of `mostPopularInput`. -/
theorem scan_reachable (st : State) (h : PopularInv st) (visit : List (GoString × Int))
    (hperm : visit.Perm st.seenStrings) :
    (statsScan visit).2 = st.seenStrings.get st.mostPopularInput
    ∧ st.seenStrings.get (statsScan visit).1 = st.seenStrings.get st.mostPopularInput
    ∧ (visit ≠ [] → statsScan visit ∈ visit) := by
  by_cases hne : st.seenStrings = []
  · have hv : visit = [] := by simpa [hne] using hperm
    have hmp := h.2.2 hne
    simp [hv, statsScan, hne, GoMap.get]
  · obtain ⟨hex, hle⟩ := isMaxCount_of_popularInv st h hne
    have hex' : ∃ e ∈ visit, e.2 = st.seenStrings.get st.mostPopularInput := by
      obtain ⟨e, he, hc⟩ := hex
      exact ⟨e, hperm.mem_iff.2 he, hc⟩
    have hle' : ∀ e ∈ visit, e.2 ≤ st.seenStrings.get st.mostPopularInput :=
      fun e he => hle e (hperm.mem_iff.1 he)
    obtain ⟨pre, k, post, hl, hpre⟩ := split_first_count visit _ hex'
    have hpos : (0 : Int) < st.seenStrings.get st.mostPopularInput := by
      obtain ⟨e, he, hc⟩ := hex
      have := h.1.2 e he
      omega
    have hres : statsScan visit = (k, st.seenStrings.get st.mostPopularInput) := by
      rw [statsScan_eq, hl]
      apply scan_first_max
      · simpa using hpos
      · intro e he
        have h1 := hle' e (by rw [hl]; exact List.mem_append_left _ he)
        have h2 := hpre e he
        omega
      · intro e he
        exact hle' e (by rw [hl]; simp [he])
    have hmem : (k, st.seenStrings.get st.mostPopularInput) ∈ st.seenStrings :=
      hperm.mem_iff.1 (by rw [hl]; simp)
    refine ⟨by rw [hres], ?_, fun _ => ?_⟩
    · rw [hres]; exact GoMap.get_of_mem _ h.1.1 _ hmem
    · rw [hres]; exact hperm.mem_iff.2 hmem

/-- C4, where the code departs from it: after `"x"` then `"y"` the two entries
tie with count 1; `remember` keeps the first of them, `"x"`, in
`mostPopularInput`, but `stats` does not read that variable: it scans the map,
and when the entries are visited with `"y"` first it reports `"y"`. -/
theorem scan_differs_on_tie :
    List.Perm [(([0x79] : GoString), (1 : Int)), ([0x78], 1)]
        (rememberAll State.empty [[0x78], [0x79]]).seenStrings
    ∧ (stats (rememberAll State.empty [[0x78], [0x79]])
          [([0x79], 1), ([0x78], 1)]).MostPopular = [0x79]
    ∧ (rememberAll State.empty [[0x78], [0x79]]).mostPopularInput = [0x78] := by
  decide

/-- After a run of `remember` calls the scan, in any visiting order, returns a
key with the count of `mostPopularInput`, the first visited with that count, and
`mostPopularInput` itself when no other entry has that count. -/
theorem scan_agrees (inputs : List GoString) (visit : List (GoString × Int))
    (hperm : visit.Perm (rememberAll State.empty inputs).seenStrings) :
    (rememberAll State.empty inputs).seenStrings.get
        (stats (rememberAll State.empty inputs) visit).MostPopular
      = (rememberAll State.empty inputs).seenStrings.get
          (rememberAll State.empty inputs).mostPopularInput
    ∧ (∀ pre k post, visit = pre ++ (k, (rememberAll State.empty inputs).seenStrings.get
          (rememberAll State.empty inputs).mostPopularInput) :: post →
        (∀ e ∈ pre, e.2 < (rememberAll State.empty inputs).seenStrings.get
          (rememberAll State.empty inputs).mostPopularInput) →
        (stats (rememberAll State.empty inputs) visit).MostPopular = k)
    ∧ ((∀ e ∈ (rememberAll State.empty inputs).seenStrings,
          e.2 = (rememberAll State.empty inputs).seenStrings.get
                  (rememberAll State.empty inputs).mostPopularInput →
          e.1 = (rememberAll State.empty inputs).mostPopularInput) →
        (stats (rememberAll State.empty inputs) visit).MostPopular
          = (rememberAll State.empty inputs).mostPopularInput) := by
  have hinv := popularInv_rememberAll inputs
  obtain ⟨h1, h2, h3⟩ := scan_reachable _ hinv visit hperm
  refine ⟨h2, ?_, fun huniq => ?_⟩
  · intro pre k post hl hpre
    have hne : (rememberAll State.empty inputs).seenStrings ≠ [] := by
      intro hnil
      rw [hnil, hl] at hperm
      simp at hperm
    obtain ⟨hex, hle⟩ := isMaxCount_of_popularInv _ hinv hne
    have hpos : (0 : Int) < (rememberAll State.empty inputs).seenStrings.get
        (rememberAll State.empty inputs).mostPopularInput := by
      obtain ⟨e, he, hc⟩ := hex
      have := hinv.1.2 e he
      omega
    show (statsScan visit).1 = k
    rw [statsScan_eq, hl, scan_first_max pre post k _ _ (by simpa using hpos) hpre]
    intro e he
    exact hle e (hperm.mem_iff.1 (by rw [hl]; simp [he]))
  · show (statsScan visit).1 = _
    by_cases hv : visit = []
    · have hnil : (rememberAll State.empty inputs).seenStrings = [] := by
        rw [hv] at hperm
        exact List.Perm.eq_nil hperm.symm
      rw [hv, hinv.2.2 hnil]
      rfl
    · exact huniq _ (hperm.mem_iff.1 (h3 hv)) h1

/-! ## C5: first writer wins -/

theorem foldl_max_ge_init (l : List Nat) (a : Nat) : a ≤ l.foldl max a := by
  induction l generalizing a with
  | nil => simp
  | cons x xs ih => exact le_trans (le_max_left a x) (ih (max a x))

theorem foldl_max_ge (l : List Nat) (a x : Nat) (hx : x ∈ l) : x ≤ l.foldl max a := by
  induction l generalizing a with
  | nil => simp at hx
  | cons y ys ih =>
    rcases List.mem_cons.1 hx with hx | hx
    · rw [hx]; exact le_trans (le_max_right a y) (foldl_max_ge_init ys (max a y))
    · exact ih (max a y) hx

theorem foldl_max_le (l : List Nat) (a c : Nat) (ha : a ≤ c) (h : ∀ x ∈ l, x ≤ c) :
    l.foldl max a ≤ c := by
  induction l generalizing a with
  | nil => simpa using ha
  | cons y ys ih =>
    exact ih (max a y) (max_le ha (h y (List.mem_cons_self _ _)))
      (fun x hx => h x (List.mem_cons_of_mem _ hx))

theorem foldl_max_eq (l : List Nat) (c : Nat) (hc : c ∈ l) (h : ∀ x ∈ l, x ≤ c) :
    l.foldl max 0 = c :=
  le_antisymm (foldl_max_le l 0 c (Nat.zero_le _) h) (foldl_max_ge l 0 c hc)

theorem getElem?_lt_length {α : Type} (l : List α) (i : Nat) (a : α)
    (h : l[i]? = some a) : i < l.length := by
  by_contra hn
  rw [List.getElem?_eq_none (by omega)] at h
  exact Option.noConfusion h

theorem count_take_le (inputs : List GoString) (n : Nat) (s : GoString) :
    (inputs.take n).count s ≤ inputs.count s :=
  (List.take_sublist n inputs).count_le s

/-- The count of `mostPopularInput` after a run is the greatest number of
occurrences in the run. -/
theorem get_mostPopular_eq_maxOccurrences (inputs : List GoString) :
    (rememberAll State.empty inputs).seenStrings.get
        (rememberAll State.empty inputs).mostPopularInput
      = (maxOccurrences inputs : Int) := by
  have hinv := popularInv_rememberAll inputs
  have hget : ∀ s, (rememberAll State.empty inputs).seenStrings.get s
      = (inputs.count s : Int) := by
    intro s; rw [rememberAll_get]; simp [State.empty, GoMap.get]
  rw [hget]
  by_cases hne : inputs = []
  · subst hne; simp [maxOccurrences]
  · have hkey : (rememberAll State.empty inputs).mostPopularInput ∈ inputs := by
      have hne' : (rememberAll State.empty inputs).seenStrings ≠ [] := by
        obtain ⟨x, hx⟩ := List.exists_mem_of_ne_nil _ hne
        have := (rememberAll_mem_keys State.empty inputs x).2 (Or.inr hx)
        intro hnil
        rw [hnil] at this
        simp [GoMap.keys] at this
      obtain ⟨⟨e, he, hc⟩, _⟩ := isMaxCount_of_popularInv _ hinv hne'
      have h1 := hinv.1.2 e he
      rw [hget] at hc
      have hpos : 0 < inputs.count (rememberAll State.empty inputs).mostPopularInput := by
        omega
      exact List.count_pos_iff.1 hpos
    have := foldl_max_eq (inputs.map (fun s => inputs.count s))
      (inputs.count (rememberAll State.empty inputs).mostPopularInput)
      (List.mem_map_of_mem _ hkey)
      (by
        intro c hc
        obtain ⟨s, _, rfl⟩ := List.mem_map.1 hc
        have := hinv.2.1 s
        rw [hget, hget] at this
        exact_mod_cast this)
    unfold maxOccurrences
    rw [this]

/-- The leader `mostPopularInput` is the string at the earliest position where a running
count reaches the final count of `mostPopularInput`. -/
theorem popular_first (inputs : List GoString) (hne : inputs ≠ []) :
    ∃ i, inputs[i]? = some (rememberAll State.empty inputs).mostPopularInput
      ∧ ((inputs.take (i + 1)).count (rememberAll State.empty inputs).mostPopularInput : Int)
          = (rememberAll State.empty inputs).seenStrings.get
              (rememberAll State.empty inputs).mostPopularInput
      ∧ ∀ j < i, ∀ s, inputs[j]? = some s →
          ((inputs.take (j + 1)).count s : Int)
            < (rememberAll State.empty inputs).seenStrings.get
                (rememberAll State.empty inputs).mostPopularInput := by
  induction inputs using List.reverseRecOn with
  | nil => exact absurd rfl hne
  | append_singleton xs x ih =>
    have hget : ∀ (l : List GoString) (s : GoString),
        (rememberAll State.empty l).seenStrings.get s = (l.count s : Int) := by
      intro l s; rw [rememberAll_get]; simp [State.empty, GoMap.get]
    have hinv := popularInv_rememberAll xs
    -- every running count inside `xs` is at most the old maximum
    have hold : ∀ j s, xs[j]? = some s →
        (((xs ++ [x]).take (j + 1)).count s : Int)
          ≤ (rememberAll State.empty xs).seenStrings.get
              (rememberAll State.empty xs).mostPopularInput := by
      intro j s hj
      have hlt := getElem?_lt_length xs j s hj
      rw [List.take_append_of_le_length (by omega)]
      have h1 := count_take_le xs (j + 1) s
      have h2 := hinv.2.1 s
      rw [hget xs s] at h2
      omega
    have hmp := remember_mostPopular (rememberAll State.empty xs) x
    rw [← rememberAll_snoc] at hmp
    have hx' : (rememberAll State.empty (xs ++ [x])).seenStrings.get x
        = (rememberAll State.empty xs).seenStrings.get x + 1 := by
      rw [rememberAll_snoc, remember_get]; simp
    -- the new input becomes, or stays, the leader with a greater count
    have hnew : (rememberAll State.empty (xs ++ [x])).mostPopularInput = x →
        (rememberAll State.empty xs).seenStrings.get
            (rememberAll State.empty xs).mostPopularInput
          < (rememberAll State.empty (xs ++ [x])).seenStrings.get x →
        ∃ i, (xs ++ [x])[i]? = some (rememberAll State.empty (xs ++ [x])).mostPopularInput
          ∧ (((xs ++ [x]).take (i + 1)).count
                (rememberAll State.empty (xs ++ [x])).mostPopularInput : Int)
              = (rememberAll State.empty (xs ++ [x])).seenStrings.get
                  (rememberAll State.empty (xs ++ [x])).mostPopularInput
          ∧ ∀ j < i, ∀ s, (xs ++ [x])[j]? = some s →
              (((xs ++ [x]).take (j + 1)).count s : Int)
                < (rememberAll State.empty (xs ++ [x])).seenStrings.get
                    (rememberAll State.empty (xs ++ [x])).mostPopularInput := by
      intro hEq hlt
      refine ⟨xs.length, ?_, ?_, ?_⟩
      · rw [hEq]; exact List.getElem?_concat_length xs x
      · rw [List.take_of_length_le (by simp), hget]
      · intro j hj s hs
        rw [List.getElem?_append_left hj] at hs
        have := hold j s hs
        rw [hEq]
        omega
    by_cases hgt : (rememberAll State.empty (xs ++ [x])).seenStrings.get x
        > (rememberAll State.empty (xs ++ [x])).seenStrings.get
            (rememberAll State.empty xs).mostPopularInput
    · rw [if_pos hgt] at hmp
      apply hnew hmp
      have := remember_get (rememberAll State.empty xs) x
        (rememberAll State.empty xs).mostPopularInput
      rw [← rememberAll_snoc] at this
      split at this <;> omega
    · rw [if_neg hgt] at hmp
      by_cases hxm : x = (rememberAll State.empty xs).mostPopularInput
      · apply hnew (by rw [hmp, hxm])
        rw [hx', hxm]; omega
      · -- the leader and its count are unchanged
        have hsame : (rememberAll State.empty (xs ++ [x])).seenStrings.get
              (rememberAll State.empty xs).mostPopularInput
            = (rememberAll State.empty xs).seenStrings.get
                (rememberAll State.empty xs).mostPopularInput := by
          have hxm' : ¬ (rememberAll State.empty xs).mostPopularInput = x :=
            fun e => hxm e.symm
          rw [rememberAll_snoc, remember_get]
          simp [hxm']
        have hxs : xs ≠ [] := by
          intro hnil
          subst hnil
          apply hgt
          rw [hx', hsame]
          simp [rememberAll, State.empty, GoMap.get]
        obtain ⟨i, hi1, hi2, hi3⟩ := ih hxs
        have hilt := getElem?_lt_length xs i _ hi1
        refine ⟨i, ?_, ?_, ?_⟩
        · rw [hmp, List.getElem?_append_left hilt]; exact hi1
        · rw [hmp, hsame, List.take_append_of_le_length (by omega)]; exact hi2
        · intro j hj s hs
          rw [List.getElem?_append_left (by omega)] at hs
          rw [hmp, hsame, List.take_append_of_le_length (by omega)]
          exact hi3 j hj s hs

/-- The field `longestInput` is the earliest input with the greatest rune count. -/
theorem longest_first (inputs : List GoString) :
    RuneCountInString (rememberAll State.empty inputs).longestInput = maxRuneCount inputs
    ∧ (inputs = [] → (rememberAll State.empty inputs).longestInput = [])
    ∧ (inputs ≠ [] →
        ∃ i : Nat, inputs[i]? = some (rememberAll State.empty inputs).longestInput
          ∧ ∀ j : Nat, j < i → ∀ s : GoString, inputs[j]? = some s →
              RuneCountInString s < maxRuneCount inputs) := by
  induction inputs using List.reverseRecOn with
  | nil => simp [rememberAll, State.empty, maxRuneCount, RuneCountInString, runes, runesAux]
  | append_singleton xs x ih =>
    obtain ⟨ih1, ih2, ih3⟩ := ih
    have hbound : ∀ (j : Nat) (s : GoString), xs[j]? = some s →
        RuneCountInString s ≤ maxRuneCount xs := by
      intro j s hj
      have hmem : RuneCountInString s ∈ xs.map RuneCountInString :=
        List.mem_map_of_mem _ (List.getElem?_mem hj)
      exact foldl_max_ge _ 0 _ hmem
    have hl := remember_longest (rememberAll State.empty xs) x
    rw [← rememberAll_snoc] at hl
    rw [maxRuneCount_snoc]
    refine ⟨?_, fun h => by simp at h, fun _ => ?_⟩
    · rw [hl]; split <;> omega
    · by_cases hgt : RuneCountInString x
          > RuneCountInString (rememberAll State.empty xs).longestInput
      · rw [if_pos hgt] at hl
        refine ⟨xs.length, by rw [hl]; exact List.getElem?_concat_length xs x, ?_⟩
        intro j hj s hs
        rw [List.getElem?_append_left hj] at hs
        have := hbound j s hs
        omega
      · rw [if_neg hgt] at hl
        by_cases hxs : xs = []
        · have h0 := ih2 hxs
          rw [h0] at hgt
          have e0 : RuneCountInString ([] : GoString) = 0 := rfl
          rw [e0] at hgt
          have hx : x = [] := by
            cases x with
            | nil => rfl
            | cons b bs => simp [RuneCountInString, runes, runesAux] at hgt
          refine ⟨0, by rw [hl, h0, hxs, hx]; rfl, fun j hj => by omega⟩
        · obtain ⟨i, hi1, hi2⟩ := ih3 hxs
          have hilt := getElem?_lt_length xs i _ hi1
          refine ⟨i, by rw [hl, List.getElem?_append_left hilt]; exact hi1, ?_⟩
          intro j hj s hs
          rw [List.getElem?_append_left (by omega)] at hs
          have := hi2 j hj s hs
          omega

/-- C5.  After a non-empty sequence of `remember` calls from the empty state,
`mostPopularInput` is the input at the earliest position where the running count
of the input at that position reaches the greatest final count, and
`longestInput` is the earliest input with the greatest rune count.  One
`remember` call replaces `mostPopularInput` by the input exactly when the new
count of the input is strictly greater than the count of the current leader, and
`longestInput` exactly when the input has strictly more runes; otherwise the
field is unchanged.  After `"x"`, `"y"` the leader is `"x"`; after a further
`"y"` it is `"y"`. -/
theorem first_writer_wins :
    (∀ inputs : List GoString, inputs ≠ [] →
        (∃ i : Nat, inputs[i]? = some (rememberAll State.empty inputs).mostPopularInput
          ∧ (inputs.take (i + 1)).count (rememberAll State.empty inputs).mostPopularInput
              = maxOccurrences inputs
          ∧ ∀ j : Nat, j < i → ∀ s : GoString, inputs[j]? = some s →
              (inputs.take (j + 1)).count s < maxOccurrences inputs)
        ∧ (∃ i : Nat, inputs[i]? = some (rememberAll State.empty inputs).longestInput
          ∧ RuneCountInString (rememberAll State.empty inputs).longestInput
              = maxRuneCount inputs
          ∧ ∀ j : Nat, j < i → ∀ s : GoString, inputs[j]? = some s →
              RuneCountInString s < maxRuneCount inputs))
    ∧ (∀ (st : State) (input : GoString),
        (remember st input).mostPopularInput
          = (if (remember st input).seenStrings.get input
                > (remember st input).seenStrings.get st.mostPopularInput
             then input else st.mostPopularInput)
        ∧ (remember st input).longestInput
          = (if RuneCountInString input > RuneCountInString st.longestInput then input
             else st.longestInput))
    ∧ (rememberAll State.empty [[0x78], [0x79]]).mostPopularInput = [0x78]
    ∧ (rememberAll State.empty [[0x78], [0x79], [0x79]]).mostPopularInput = [0x79] := by
  refine ⟨fun inputs hne => ⟨?_, ?_⟩,
    fun st input => ⟨remember_mostPopular st input, remember_longest st input⟩,
    by decide, by decide⟩
  · obtain ⟨i, h1, h2, h3⟩ := popular_first inputs hne
    rw [get_mostPopular_eq_maxOccurrences] at h2
    refine ⟨i, h1, by exact_mod_cast h2, ?_⟩
    intro j hj s hs
    have := h3 j hj s hs
    rw [get_mostPopular_eq_maxOccurrences] at this
    exact_mod_cast this
  · obtain ⟨h1, _, h3⟩ := longest_first inputs
    obtain ⟨i, hi1, hi2⟩ := h3 hne
    exact ⟨i, hi1, h1, hi2⟩

/-- C5 at the inputs `"x"`, `"y"`, `"y"`, `"x"`: the leader is the input at the
earliest position where a running count reaches the greatest final count. -/
theorem first_writer_wins_witness :
    ∃ i : Nat, [([0x78] : GoString), [0x79], [0x79], [0x78]][i]?
        = some (rememberAll State.empty [[0x78], [0x79], [0x79], [0x78]]).mostPopularInput
      ∧ ([([0x78] : GoString), [0x79], [0x79], [0x78]].take (i + 1)).count
          (rememberAll State.empty [[0x78], [0x79], [0x79], [0x78]]).mostPopularInput
          = maxOccurrences [[0x78], [0x79], [0x79], [0x78]]
      ∧ ∀ j : Nat, j < i → ∀ s : GoString,
          [([0x78] : GoString), [0x79], [0x79], [0x78]][j]? = some s →
          ([([0x78] : GoString), [0x79], [0x79], [0x78]].take (j + 1)).count s
            < maxOccurrences [[0x78], [0x79], [0x79], [0x78]] :=
  (first_writer_wins.1 [[0x78], [0x79], [0x79], [0x78]] (by decide)).1

/-! ## C6 and C7: the character frequency analyzer -/

theorem calculateMostFrequent_eq (isSpace isPunct : Rune → Bool) (input : GoString) :
    calculateMostFrequent isSpace isPunct input
      = ((freqLoop isSpace isPunct (runes input)).maxChar,
         (freqLoop isSpace isPunct (runes input)).maxCount) := rfl

theorem freqLoop_snoc (isSpace isPunct : Rune → Bool) (rs : List Rune) (x : Rune) :
    freqLoop isSpace isPunct (rs ++ [x])
      = freqStep isSpace isPunct (freqLoop isSpace isPunct rs) x := by
  simp [freqLoop, List.foldl_append]

theorem freqStep_skip (isSpace isPunct : Rune → Bool) (fs : FreqState) (x : Rune)
    (h : qualifying isSpace isPunct x = false) : freqStep isSpace isPunct fs x = fs := by
  have : (isSpace x || isPunct x) = true := by
    unfold qualifying at h
    cases hv : (isSpace x || isPunct x)
    · rw [hv] at h; exact Bool.noConfusion h
    · rfl
  simp only [freqStep, this, if_true]

theorem freqStep_count (isSpace isPunct : Rune → Bool) (fs : FreqState) (x : Rune)
    (h : qualifying isSpace isPunct x = true) :
    freqStep isSpace isPunct fs x
      = if fs.charCount.get x + 1 > fs.maxCount then
          ⟨fs.charCount.set x (fs.charCount.get x + 1), runeToString x,
            fs.charCount.get x + 1⟩
        else ⟨fs.charCount.set x (fs.charCount.get x + 1), fs.maxChar, fs.maxCount⟩ := by
  have : (isSpace x || isPunct x) = false := by
    unfold qualifying at h
    cases hv : (isSpace x || isPunct x)
    · rfl
    · rw [hv] at h; exact Bool.noConfusion h
  simp [freqStep, this, GoMap.get_set_self]

theorem runeToString_ne_nil (r : Rune) : runeToString r ≠ [] := by
  unfold runeToString
  split
  · simp
  · split
    · simp
    · split
      · simp
      · split <;> simp

/-- The tallies after the loop: a qualifying rune has the number of its
occurrences, any other rune has none. -/
theorem freqLoop_charCount (isSpace isPunct : Rune → Bool) (rs : List Rune) (r : Rune) :
    (freqLoop isSpace isPunct rs).charCount.get r
      = if qualifying isSpace isPunct r then (rs.count r : Int) else 0 := by
  induction rs using List.reverseRecOn with
  | nil => simp [freqLoop, GoMap.get]
  | append_singleton xs x ih =>
    rw [freqLoop_snoc]
    by_cases hq : qualifying isSpace isPunct x = true
    · have hset : (freqStep isSpace isPunct (freqLoop isSpace isPunct xs) x).charCount
          = (freqLoop isSpace isPunct xs).charCount.set x
              ((freqLoop isSpace isPunct xs).charCount.get x + 1) := by
        rw [freqStep_count _ _ _ _ hq]
        split <;> rfl
      rw [hset, GoMap.get_set]
      by_cases hrx : r = x
      · subst hrx
        rw [if_pos rfl, ih]
        simp [hq]
      · have hxr : ¬ (x = r) := fun e => hrx e.symm
        rw [if_neg hrx, ih]
        simp [List.count_append, List.count_singleton, hxr]
    · have hq' : qualifying isSpace isPunct x = false := by simpa using hq
      rw [freqStep_skip _ _ _ _ hq', ih]
      by_cases hr : qualifying isSpace isPunct r = true
      · have hxr : ¬ (x = r) := by
          intro e; rw [e] at hq'; rw [hq'] at hr; exact Bool.noConfusion hr
        simp [hr, List.count_append, List.count_singleton, hxr]
      · simp [hr]

/-- The invariant of the loop in `calculateMostFrequent`: `maxCount` bounds
every tally; with no qualifying rune nothing is chosen; otherwise `maxChar` is
the rune at the earliest position where a running tally reaches `maxCount`. -/
theorem freqLoop_inv (isSpace isPunct : Rune → Bool) (rs : List Rune) :
    (∀ r, qualifying isSpace isPunct r = true →
        (rs.count r : Int) ≤ (freqLoop isSpace isPunct rs).maxCount)
    ∧ ((∀ r ∈ rs, qualifying isSpace isPunct r = false) →
        (freqLoop isSpace isPunct rs).maxChar = []
        ∧ (freqLoop isSpace isPunct rs).maxCount = 0)
    ∧ ((∃ r ∈ rs, qualifying isSpace isPunct r = true) →
        ∃ (i : Nat) (r : Rune), rs[i]? = some r ∧ qualifying isSpace isPunct r = true
          ∧ (freqLoop isSpace isPunct rs).maxChar = runeToString r
          ∧ ((rs.take (i + 1)).count r : Int) = (freqLoop isSpace isPunct rs).maxCount
          ∧ ∀ j : Nat, j < i → ∀ s : Rune, rs[j]? = some s →
              qualifying isSpace isPunct s = true →
              ((rs.take (j + 1)).count s : Int)
                < (freqLoop isSpace isPunct rs).maxCount) := by
  induction rs using List.reverseRecOn with
  | nil => simp [freqLoop]
  | append_singleton xs x ih =>
    obtain ⟨ih1, ih2, ih3⟩ := ih
    rw [freqLoop_snoc]
    -- an index found for `xs` serves for `xs ++ [x]` while `maxCount` stays
    have hkeep : ∀ (i : Nat) (r : Rune), xs[i]? = some r →
        ((xs ++ [x])[i]? = some r
          ∧ ((xs ++ [x]).take (i + 1)).count r = (xs.take (i + 1)).count r) := by
      intro i r hi
      have hlt := getElem?_lt_length xs i r hi
      exact ⟨by rw [List.getElem?_append_left hlt]; exact hi,
        by rw [List.take_append_of_le_length (by omega)]⟩
    by_cases hq : qualifying isSpace isPunct x = true
    · -- the rune is tallied
      have hcx := freqLoop_charCount isSpace isPunct xs x
      rw [if_pos hq] at hcx
      rw [freqStep_count _ _ _ _ hq, hcx]
      by_cases hgt : (xs.count x : Int) + 1 > (freqLoop isSpace isPunct xs).maxCount
      · rw [if_pos hgt]
        refine ⟨?_, ?_, fun _ => ?_⟩
        · intro r hr
          have := ih1 r hr
          simp only [List.count_append, List.count_singleton]
          by_cases hxr : x = r
          · subst hxr; simp
          · simp [hxr]; omega
        · intro hall
          have := hall x (by simp)
          rw [hq] at this
          exact Bool.noConfusion this
        · refine ⟨xs.length, x, List.getElem?_concat_length xs x, hq, rfl, ?_, ?_⟩
          · rw [List.take_of_length_le (by simp)]
            simp [List.count_append]
          · intro j hj s hs hqs
            rw [List.getElem?_append_left hj] at hs
            rw [(hkeep j s hs).2]
            have h1 := (List.take_sublist (j + 1) xs).count_le s
            have h2 := ih1 s hqs
            show ((xs.take (j + 1)).count s : Int) < (xs.count x : Int) + 1
            omega
      · rw [if_neg hgt]
        refine ⟨?_, ?_, fun _ => ?_⟩
        · intro r hr
          have := ih1 r hr
          simp only [List.count_append, List.count_singleton]
          by_cases hxr : x = r
          · subst hxr; simp; omega
          · simp [hxr]; omega
        · intro hall
          have := hall x (by simp)
          rw [hq] at this
          exact Bool.noConfusion this
        · have hex : ∃ r ∈ xs, qualifying isSpace isPunct r = true := by
            by_contra hno
            have hall : ∀ r ∈ xs, qualifying isSpace isPunct r = false := by
              intro r hr
              cases hv : qualifying isSpace isPunct r
              · rfl
              · exact absurd ⟨r, hr, hv⟩ hno
            have := (ih2 hall).2
            rw [this] at hgt
            omega
          obtain ⟨i, r, hi, hqr, hmc, hcnt, hfirst⟩ := ih3 hex
          have hilt := getElem?_lt_length xs i r hi
          refine ⟨i, r, (hkeep i r hi).1, hqr, hmc, ?_, ?_⟩
          · rw [(hkeep i r hi).2]; exact hcnt
          · intro j hj s hs hqs
            rw [List.getElem?_append_left (by omega)] at hs
            rw [(hkeep j s hs).2]
            exact hfirst j hj s hs hqs
    · -- the rune is skipped
      have hq' : qualifying isSpace isPunct x = false := by simpa using hq
      rw [freqStep_skip _ _ _ _ hq']
      have hne : ∀ r, qualifying isSpace isPunct r = true → ¬ (x = r) := by
        intro r hr e
        rw [e] at hq'; rw [hq'] at hr; exact Bool.noConfusion hr
      refine ⟨?_, ?_, ?_⟩
      · intro r hr
        have := ih1 r hr
        simp only [List.count_append, List.count_singleton]
        simp [hne r hr]; omega
      · intro hall
        exact ih2 (fun r hr => hall r (List.mem_append_left _ hr))
      · rintro ⟨r, hr, hqr⟩
        have hrx : r ∈ xs := by
          rcases List.mem_append.1 hr with h | h
          · exact h
          · have : r = x := by simpa using h
            exact absurd this.symm (hne r hqr)
        obtain ⟨i, r', hi, hqr', hmc, hcnt, hfirst⟩ := ih3 ⟨r, hrx, hqr⟩
        have hilt := getElem?_lt_length xs i r' hi
        refine ⟨i, r', (hkeep i r' hi).1, hqr', hmc, ?_, ?_⟩
        · rw [(hkeep i r' hi).2]; exact hcnt
        · intro j hj s hs hqs
          rw [List.getElem?_append_left (by omega)] at hs
          rw [(hkeep j s hs).2]
          exact hfirst j hj s hs hqs

theorem decodeRune_valid (s : GoString) : validRune (decodeRune s).1 := by
  unfold decodeRune
  split
  · simp [validRune, RuneError]
  · rename_i s0 rest
    have h0 := s0.isLt
    simp only
    repeat' split
    all_goals first
      | (simp [validRune, RuneError]; done)
      | (simp only [validRune, isCont, Bool.and_eq_true, decide_eq_true_eq, Bool.or_eq_true,
          Bool.not_eq_true', Bool.and_eq_false_iff, decide_eq_false_iff_not] at *; omega)

theorem byte_val (n : Nat) : (byte n).val = n % 256 := rfl

theorem decodeRune_one (b0 : Byte) (t : GoString) (h : b0.val < 0x80) :
    decodeRune (b0 :: t) = (b0.val, 1) := by
  simp [decodeRune, h]

theorem decodeRune_two (b0 b1 : Byte) (t : GoString) (h0 : 0xC2 ≤ b0.val) (h0' : b0.val < 0xE0)
    (h1 : 0x80 ≤ b1.val) (h1' : b1.val ≤ 0xBF) :
    decodeRune (b0 :: b1 :: t) = ((b0.val % 0x20) * 0x40 + b1.val % 0x40, 2) := by
  have e1 : ¬ (b0.val < 0x80) := by omega
  have e2 : ¬ (b0.val < 0xC2) := by omega
  simp [decodeRune, e1, e2, h0', isCont, h1, h1']

theorem decodeRune_three (b0 b1 b2 : Byte) (t : GoString) (h0 : 0xE0 ≤ b0.val)
    (h0' : b0.val < 0xF0)
    (h1 : (if b0.val = 0xE0 then 0xA0 else 0x80) ≤ b1.val)
    (h1' : b1.val ≤ (if b0.val = 0xED then 0x9F else 0xBF))
    (h2 : 0x80 ≤ b2.val) (h2' : b2.val ≤ 0xBF) :
    decodeRune (b0 :: b1 :: b2 :: t)
      = ((b0.val % 0x10) * 0x1000 + (b1.val % 0x40) * 0x40 + b2.val % 0x40, 3) := by
  have e1 : ¬ (b0.val < 0x80) := by omega
  have e2 : ¬ (b0.val < 0xC2) := by omega
  have e3 : ¬ (b0.val < 0xE0) := by omega
  have e4 : ¬ (b1.val < (if b0.val = 0xE0 then 0xA0 else 0x80)) := by omega
  have e5 : ¬ ((if b0.val = 0xED then 0x9F else 0xBF) < b1.val) := by omega
  simp [decodeRune, e1, e2, e3, h0', isCont, e4, e5, h2, h2']

theorem decodeRune_four (b0 b1 b2 b3 : Byte) (t : GoString) (h0 : 0xF0 ≤ b0.val)
    (h0' : b0.val < 0xF5)
    (h1 : (if b0.val = 0xF0 then 0x90 else 0x80) ≤ b1.val)
    (h1' : b1.val ≤ (if b0.val = 0xF4 then 0x8F else 0xBF))
    (h2 : 0x80 ≤ b2.val) (h2' : b2.val ≤ 0xBF) (h3 : 0x80 ≤ b3.val) (h3' : b3.val ≤ 0xBF) :
    decodeRune (b0 :: b1 :: b2 :: b3 :: t)
      = ((b0.val % 0x08) * 0x40000 + (b1.val % 0x40) * 0x1000
          + (b2.val % 0x40) * 0x40 + b3.val % 0x40, 4) := by
  have e1 : ¬ (b0.val < 0x80) := by omega
  have e2 : ¬ (b0.val < 0xC2) := by omega
  have e3 : ¬ (b0.val < 0xE0) := by omega
  have e3' : ¬ (b0.val < 0xF0) := by omega
  have e4 : ¬ (b1.val < (if b0.val = 0xF0 then 0x90 else 0x80)) := by omega
  have e5 : ¬ ((if b0.val = 0xF4 then 0x8F else 0xBF) < b1.val) := by omega
  simp [decodeRune, e1, e2, e3, e3', h0', isCont, e4, e5, h2, h2', h3, h3']

theorem decodeRune_runeToString (r : Nat) (h : validRune r) (t : GoString) :
    decodeRune (runeToString r ++ t) = (r, (runeToString r).length) := by
  unfold validRune at h
  unfold runeToString
  split
  · rw [List.singleton_append, decodeRune_one _ _ (by rw [byte_val]; omega), byte_val]
    simp; omega
  · split
    · simp only [List.cons_append, List.nil_append]
      rw [decodeRune_two _ _ _ (by rw [byte_val]; omega) (by rw [byte_val]; omega)
        (by rw [byte_val]; omega) (by rw [byte_val]; omega)]
      simp [byte_val]; omega
    · split
      · rename_i hs
        simp at hs
        omega
      · split
        · simp only [List.cons_append, List.nil_append]
          rw [decodeRune_three _ _ _ _ (by rw [byte_val]; omega) (by rw [byte_val]; omega)
            (by simp only [byte_val]; split <;> omega) (by simp only [byte_val]; split <;> omega)
            (by rw [byte_val]; omega) (by rw [byte_val]; omega)]
          simp [byte_val]; omega
        · simp only [List.cons_append, List.nil_append]
          rw [decodeRune_four _ _ _ _ _ (by rw [byte_val]; omega) (by rw [byte_val]; omega)
            (by simp only [byte_val]; split <;> omega) (by simp only [byte_val]; split <;> omega)
            (by rw [byte_val]; omega) (by rw [byte_val]; omega)
            (by rw [byte_val]; omega) (by rw [byte_val]; omega)]
          simp [byte_val]; omega

theorem runesAux_nil (fuel : Nat) : runesAux fuel [] = [] := by
  cases fuel <;> rfl

theorem runesAux_valid (fuel : Nat) (s : GoString) : ∀ r ∈ runesAux fuel s, validRune r := by
  induction fuel generalizing s with
  | zero => intro r hr; simp [runesAux] at hr
  | succ n ih =>
    cases s with
    | nil => intro r hr; simp [runesAux] at hr
    | cons b bs =>
      intro r hr
      simp only [runesAux, List.mem_cons] at hr
      rcases hr with hr | hr
      · rw [hr]; exact decodeRune_valid _
      · exact ih _ r hr

theorem runes_valid (s : GoString) : ∀ r ∈ runes s, validRune r :=
  runesAux_valid _ s

theorem runes_runeToString (r : Nat) (h : validRune r) : runes (runeToString r) = [r] := by
  have hd := decodeRune_runeToString r h []
  rw [List.append_nil] at hd
  have hne := runeToString_ne_nil r
  unfold runes
  cases hs : runeToString r with
  | nil => exact absurd hs hne
  | cons b bs =>
    rw [hs] at hd
    have hdrop : List.drop (bs.length + 1) (b :: bs) = [] := by simp
    simp only [List.length_cons, runesAux, hd, hdrop, runesAux_nil]

theorem no_qualifying_iff (isSpace isPunct : Rune → Bool) (rs : List Rune) :
    (¬ ∃ r ∈ rs, qualifying isSpace isPunct r = true)
      ↔ ∀ r ∈ rs, qualifying isSpace isPunct r = false := by
  constructor
  · intro h r hr
    cases hv : qualifying isSpace isPunct r
    · rfl
    · exact absurd ⟨r, hr, hv⟩ h
  · rintro h ⟨r, hr, hq⟩
    rw [h r hr] at hq
    exact Bool.noConfusion hq

/-- With a qualifying rune present, the chosen rune occurs `maxCount` times in
the whole input, and `maxCount` is positive. -/
theorem freqLoop_chosen (isSpace isPunct : Rune → Bool) (rs : List Rune)
    (h : ∃ r ∈ rs, qualifying isSpace isPunct r = true) :
    ∃ (i : Nat) (r : Rune), rs[i]? = some r ∧ qualifying isSpace isPunct r = true
      ∧ (freqLoop isSpace isPunct rs).maxChar = runeToString r
      ∧ (rs.count r : Int) = (freqLoop isSpace isPunct rs).maxCount
      ∧ ((rs.take (i + 1)).count r : Int) = (freqLoop isSpace isPunct rs).maxCount
      ∧ 0 < (freqLoop isSpace isPunct rs).maxCount
      ∧ ∀ j : Nat, j < i → ∀ s : Rune, rs[j]? = some s →
          qualifying isSpace isPunct s = true →
          ((rs.take (j + 1)).count s : Int) < (freqLoop isSpace isPunct rs).maxCount := by
  obtain ⟨h1, _, h3⟩ := freqLoop_inv isSpace isPunct rs
  obtain ⟨i, r, hi, hq, hmc, hcnt, hfirst⟩ := h3 h
  have hle := h1 r hq
  have hsub := (List.take_sublist (i + 1) rs).count_le r
  have hmem : r ∈ rs := List.getElem?_mem hi
  have hpos : 0 < rs.count r := List.count_pos_iff.2 hmem
  exact ⟨i, r, hi, hq, hmc, by omega, hcnt, by omega, hfirst⟩

theorem freqLoop_maxCount (isSpace isPunct : Rune → Bool) (rs : List Rune) :
    (freqLoop isSpace isPunct rs).maxCount = (maxTally isSpace isPunct rs : Int) := by
  by_cases h : ∃ r ∈ rs, qualifying isSpace isPunct r = true
  · obtain ⟨i, r, hi, hq, _, hcount, _, _, _⟩ := freqLoop_chosen isSpace isPunct rs h
    have hmem : r ∈ rs := List.getElem?_mem hi
    have hb := (freqLoop_inv isSpace isPunct rs).1
    have : maxTally isSpace isPunct rs = rs.count r := by
      unfold maxTally
      apply foldl_max_eq
      · exact List.mem_map_of_mem _ (List.mem_filter.2 ⟨hmem, hq⟩)
      · intro c hc
        obtain ⟨s, hs, rfl⟩ := List.mem_map.1 hc
        have := hb s (List.mem_filter.1 hs).2
        omega
    rw [this, hcount]
  · have hall := (no_qualifying_iff isSpace isPunct rs).1 h
    have h0 := ((freqLoop_inv isSpace isPunct rs).2.1 hall).2
    have hf : rs.filter (qualifying isSpace isPunct) = [] := by
      rw [List.filter_eq_nil_iff]
      intro r hr
      rw [hall r hr]
      exact Bool.false_ne_true
    rw [h0]
    simp [maxTally, hf]

/-- C6.  For every input, the count that `calculateMostFrequent` returns is the
greatest number of occurrences of a rune that is neither space nor punctuation,
`0` when there is none; the returned string is empty, and the count `0`, exactly
when there is none; otherwise the returned string is the encoding of one such
rune, which occurs in the input exactly that many times.  A rune that is space
or punctuation has no tally, and the tally of any other rune is the number of
its occurrences. -/
theorem most_frequent_max_tally (isSpace isPunct : Rune → Bool) (input : GoString) :
    (calculateMostFrequent isSpace isPunct input).2
        = (maxTally isSpace isPunct (runes input) : Int)
    ∧ (((calculateMostFrequent isSpace isPunct input).1 = []
          ∧ (calculateMostFrequent isSpace isPunct input).2 = 0)
        ↔ ∀ r ∈ runes input, qualifying isSpace isPunct r = false)
    ∧ ((calculateMostFrequent isSpace isPunct input).1 = []
        ↔ ∀ r ∈ runes input, qualifying isSpace isPunct r = false)
    ∧ ((calculateMostFrequent isSpace isPunct input).2 = 0
        ↔ ∀ r ∈ runes input, qualifying isSpace isPunct r = false)
    ∧ ((∃ r ∈ runes input, qualifying isSpace isPunct r = true) →
        ∃ r ∈ runes input, qualifying isSpace isPunct r = true
          ∧ (calculateMostFrequent isSpace isPunct input).1 = runeToString r
          ∧ runes (calculateMostFrequent isSpace isPunct input).1 = [r]
          ∧ ((runes input).count r : Int) = (calculateMostFrequent isSpace isPunct input).2)
    ∧ (∀ r : Rune, (freqLoop isSpace isPunct (runes input)).charCount.get r
        = if qualifying isSpace isPunct r then ((runes input).count r : Int) else 0) := by
  rw [calculateMostFrequent_eq]
  have hinv := freqLoop_inv isSpace isPunct (runes input)
  have hsome : (∃ r ∈ runes input, qualifying isSpace isPunct r = true) →
      (freqLoop isSpace isPunct (runes input)).maxChar ≠ []
      ∧ (freqLoop isSpace isPunct (runes input)).maxCount ≠ 0 := by
    intro h
    obtain ⟨i, r, _, _, hmc, _, _, hpos, _⟩ := freqLoop_chosen isSpace isPunct _ h
    exact ⟨by rw [hmc]; exact runeToString_ne_nil r, by omega⟩
  have hnone := hinv.2.1
  refine ⟨freqLoop_maxCount isSpace isPunct _, ⟨?_, hnone⟩, ⟨?_, fun h => (hnone h).1⟩,
    ⟨?_, fun h => (hnone h).2⟩, ?_, freqLoop_charCount isSpace isPunct _⟩
  · intro h
    rw [← no_qualifying_iff]
    intro hex
    exact (hsome hex).1 h.1
  · intro h
    rw [← no_qualifying_iff]
    intro hex
    exact (hsome hex).1 h
  · intro h
    rw [← no_qualifying_iff]
    intro hex
    exact (hsome hex).2 h
  · intro h
    obtain ⟨i, r, hi, hq, hmc, hcount, _, _, _⟩ := freqLoop_chosen isSpace isPunct _ h
    have hmem : r ∈ runes input := List.getElem?_mem hi
    refine ⟨r, hmem, hq, hmc, ?_, hcount⟩
    show runes (freqLoop isSpace isPunct (runes input)).maxChar = [r]
    rw [hmc]
    exact runes_runeToString r (runes_valid input r hmem)

/-- C6 at the input `"aa!! bb"` with the Unicode tables on ASCII: some rune
qualifies, and the returned string encodes a qualifying rune of the input. -/
theorem most_frequent_max_tally_witness :
    ∃ r ∈ runes [0x61, 0x61, 0x21, 0x21, 0x20, 0x62, 0x62],
      qualifying unicodeIsSpace asciiIsPunct r = true
      ∧ (calculateMostFrequent unicodeIsSpace asciiIsPunct
            [0x61, 0x61, 0x21, 0x21, 0x20, 0x62, 0x62]).1 = runeToString r
      ∧ runes (calculateMostFrequent unicodeIsSpace asciiIsPunct
            [0x61, 0x61, 0x21, 0x21, 0x20, 0x62, 0x62]).1 = [r]
      ∧ ((runes [0x61, 0x61, 0x21, 0x21, 0x20, 0x62, 0x62]).count r : Int)
          = (calculateMostFrequent unicodeIsSpace asciiIsPunct
              [0x61, 0x61, 0x21, 0x21, 0x20, 0x62, 0x62]).2 :=
  (most_frequent_max_tally unicodeIsSpace asciiIsPunct
    [0x61, 0x61, 0x21, 0x21, 0x20, 0x62, 0x62]).2.2.2.2.1 ⟨0x61, by decide, by decide⟩

/-- C7.  For every input with a qualifying rune, `calculateMostFrequent` returns
the rune at the earliest position of the input where the running tally of the
rune at that position reaches the greatest final tally.  On `"aa!! bb"` it
returns `("a", 2)`, and on `"baab"`, where `"b"` comes first, also `("a", 2)`. -/
theorem most_frequent_tie_break :
    (∀ (isSpace isPunct : Rune → Bool) (input : GoString),
        (∃ r ∈ runes input, qualifying isSpace isPunct r = true) →
        ∃ (i : Nat) (r : Rune), (runes input)[i]? = some r
          ∧ qualifying isSpace isPunct r = true
          ∧ (calculateMostFrequent isSpace isPunct input).1 = runeToString r
          ∧ ((runes input).take (i + 1)).count r = maxTally isSpace isPunct (runes input)
          ∧ ∀ j : Nat, j < i → ∀ s : Rune, (runes input)[j]? = some s →
              qualifying isSpace isPunct s = true →
              ((runes input).take (j + 1)).count s < maxTally isSpace isPunct (runes input))
    ∧ calculateMostFrequent unicodeIsSpace asciiIsPunct
        [0x61, 0x61, 0x21, 0x21, 0x20, 0x62, 0x62] = ([0x61], 2)
    ∧ calculateMostFrequent unicodeIsSpace asciiIsPunct [0x62, 0x61, 0x61, 0x62]
        = ([0x61], 2) := by
  refine ⟨fun isSpace isPunct input h => ?_, by decide, by decide⟩
  obtain ⟨i, r, hi, hq, hmc, _, hcnt, _, hfirst⟩ := freqLoop_chosen isSpace isPunct _ h
  rw [freqLoop_maxCount] at hcnt
  refine ⟨i, r, hi, hq, hmc, by exact_mod_cast hcnt, ?_⟩
  intro j hj s hs hqs
  have := hfirst j hj s hs hqs
  rw [freqLoop_maxCount] at this
  exact_mod_cast this

/-- C7 at the input `"baab"`. -/
theorem most_frequent_tie_break_witness :
    ∃ (i : Nat) (r : Rune), (runes [0x62, 0x61, 0x61, 0x62])[i]? = some r
      ∧ qualifying unicodeIsSpace asciiIsPunct r = true
      ∧ (calculateMostFrequent unicodeIsSpace asciiIsPunct [0x62, 0x61, 0x61, 0x62]).1
          = runeToString r
      ∧ ((runes [0x62, 0x61, 0x61, 0x62]).take (i + 1)).count r
          = maxTally unicodeIsSpace asciiIsPunct (runes [0x62, 0x61, 0x61, 0x62])
      ∧ ∀ j : Nat, j < i → ∀ s : Rune, (runes [0x62, 0x61, 0x61, 0x62])[j]? = some s →
          qualifying unicodeIsSpace asciiIsPunct s = true →
          ((runes [0x62, 0x61, 0x61, 0x62]).take (j + 1)).count s
            < maxTally unicodeIsSpace asciiIsPunct (runes [0x62, 0x61, 0x61, 0x62]) :=
  most_frequent_tie_break.1 unicodeIsSpace asciiIsPunct [0x62, 0x61, 0x61, 0x62]
    ⟨0x62, by decide, by decide⟩

/-! ## Lemmas on the JSON encoding -/

theorem byte_eq (b : Byte) (n : Nat) (h : n = b.val) : byte n = b := by
  apply Fin.ext
  rw [byte_val, h]
  have := b.isLt
  omega

theorem runeToString_two (b0 b1 : Byte) (h0 : 0xC2 ≤ b0.val) (h0' : b0.val < 0xE0)
    (h1 : 0x80 ≤ b1.val) (h1' : b1.val ≤ 0xBF) :
    runeToString ((b0.val % 0x20) * 0x40 + b1.val % 0x40) = [b0, b1] := by
  unfold runeToString
  rw [if_neg (by omega), if_pos (by omega)]
  rw [byte_eq b0 _ (by omega), byte_eq b1 _ (by omega)]

theorem runeToString_three (b0 b1 b2 : Byte) (h0 : 0xE0 ≤ b0.val) (h0' : b0.val < 0xF0)
    (h1 : (if b0.val = 0xE0 then 0xA0 else 0x80) ≤ b1.val)
    (h1' : b1.val ≤ (if b0.val = 0xED then 0x9F else 0xBF))
    (h2 : 0x80 ≤ b2.val) (h2' : b2.val ≤ 0xBF) :
    runeToString ((b0.val % 0x10) * 0x1000 + (b1.val % 0x40) * 0x40 + b2.val % 0x40)
      = [b0, b1, b2] := by
  have hb : 0x80 ≤ b1.val ∧ b1.val ≤ 0xBF ∧ (b0.val = 0xE0 → 0xA0 ≤ b1.val)
      ∧ (b0.val = 0xED → b1.val ≤ 0x9F) := by
    split at h1 <;> split at h1' <;> omega
  clear h1 h1'
  have hs : ¬ (((0xD800 ≤ (b0.val % 0x10) * 0x1000 + (b1.val % 0x40) * 0x40 + b2.val % 0x40
      && (b0.val % 0x10) * 0x1000 + (b1.val % 0x40) * 0x40 + b2.val % 0x40 ≤ 0xDFFF)
      || 0x10FFFF < (b0.val % 0x10) * 0x1000 + (b1.val % 0x40) * 0x40 + b2.val % 0x40) = true) := by
    simp only [Bool.or_eq_true, Bool.and_eq_true, decide_eq_true_eq]
    omega
  unfold runeToString
  rw [if_neg (by omega), if_neg (by omega), if_neg hs, if_pos (by omega)]
  rw [byte_eq b0 _ (by omega), byte_eq b1 _ (by omega), byte_eq b2 _ (by omega)]

theorem runeToString_four (b0 b1 b2 b3 : Byte) (h0 : 0xF0 ≤ b0.val) (h0' : b0.val < 0xF5)
    (h1 : (if b0.val = 0xF0 then 0x90 else 0x80) ≤ b1.val)
    (h1' : b1.val ≤ (if b0.val = 0xF4 then 0x8F else 0xBF))
    (h2 : 0x80 ≤ b2.val) (h2' : b2.val ≤ 0xBF) (h3 : 0x80 ≤ b3.val) (h3' : b3.val ≤ 0xBF) :
    runeToString ((b0.val % 0x08) * 0x40000 + (b1.val % 0x40) * 0x1000
        + (b2.val % 0x40) * 0x40 + b3.val % 0x40) = [b0, b1, b2, b3] := by
  have hb : 0x80 ≤ b1.val ∧ b1.val ≤ 0xBF ∧ (b0.val = 0xF0 → 0x90 ≤ b1.val)
      ∧ (b0.val = 0xF4 → b1.val ≤ 0x8F) := by
    split at h1 <;> split at h1' <;> omega
  clear h1 h1'
  have hs : ¬ (((0xD800 ≤ (b0.val % 0x08) * 0x40000 + (b1.val % 0x40) * 0x1000
        + (b2.val % 0x40) * 0x40 + b3.val % 0x40
      && (b0.val % 0x08) * 0x40000 + (b1.val % 0x40) * 0x1000
        + (b2.val % 0x40) * 0x40 + b3.val % 0x40 ≤ 0xDFFF)
      || 0x10FFFF < (b0.val % 0x08) * 0x40000 + (b1.val % 0x40) * 0x1000
        + (b2.val % 0x40) * 0x40 + b3.val % 0x40) = true) := by
    simp only [Bool.or_eq_true, Bool.and_eq_true, decide_eq_true_eq]
    omega
  unfold runeToString
  rw [if_neg (by omega), if_neg (by omega), if_neg hs, if_neg (by omega)]
  rw [byte_eq b0 _ (by omega), byte_eq b1 _ (by omega), byte_eq b2 _ (by omega),
    byte_eq b3 _ (by omega)]

/-- The outcomes of `decodeRune` on a non-empty string. -/
theorem decodeRune_cases (b0 : Byte) (rest : GoString) (d : Nat × Nat)
    (hd : decodeRune (b0 :: rest) = d) :
    (b0.val < 0x80 ∧ d = (b0.val, 1))
    ∨ (0x80 ≤ b0.val ∧ d = (RuneError, 1))
    ∨ (∃ b1 t, rest = b1 :: t ∧ 0xC2 ≤ b0.val ∧ b0.val < 0xE0
        ∧ 0x80 ≤ b1.val ∧ b1.val ≤ 0xBF
        ∧ d = ((b0.val % 0x20) * 0x40 + b1.val % 0x40, 2))
    ∨ (∃ b1 b2 t, rest = b1 :: b2 :: t ∧ 0xE0 ≤ b0.val ∧ b0.val < 0xF0
        ∧ (if b0.val = 0xE0 then 0xA0 else 0x80) ≤ b1.val
        ∧ b1.val ≤ (if b0.val = 0xED then 0x9F else 0xBF)
        ∧ 0x80 ≤ b2.val ∧ b2.val ≤ 0xBF
        ∧ d = ((b0.val % 0x10) * 0x1000 + (b1.val % 0x40) * 0x40 + b2.val % 0x40, 3))
    ∨ (∃ b1 b2 b3 t, rest = b1 :: b2 :: b3 :: t ∧ 0xF0 ≤ b0.val ∧ b0.val < 0xF5
        ∧ (if b0.val = 0xF0 then 0x90 else 0x80) ≤ b1.val
        ∧ b1.val ≤ (if b0.val = 0xF4 then 0x8F else 0xBF)
        ∧ 0x80 ≤ b2.val ∧ b2.val ≤ 0xBF ∧ 0x80 ≤ b3.val ∧ b3.val ≤ 0xBF
        ∧ d = ((b0.val % 0x08) * 0x40000 + (b1.val % 0x40) * 0x1000
                + (b2.val % 0x40) * 0x40 + b3.val % 0x40, 4)) := by
  have hlt := b0.isLt
  by_cases c1 : b0.val < 0x80
  · left
    rw [decodeRune_one b0 rest c1] at hd
    exact ⟨c1, hd.symm⟩
  by_cases c2 : b0.val < 0xC2
  · right; left
    refine ⟨by omega, ?_⟩
    rw [← hd]; simp [decodeRune, c1, c2]
  by_cases c3 : b0.val < 0xE0
  · cases rest with
    | nil => right; left; refine ⟨by omega, ?_⟩; rw [← hd]; simp [decodeRune, c1, c2, c3]
    | cons b1 t =>
      by_cases hc : 0x80 ≤ b1.val ∧ b1.val ≤ 0xBF
      · right; right; left
        refine ⟨b1, t, rfl, by omega, c3, hc.1, hc.2, ?_⟩
        rw [← hd, decodeRune_two b0 b1 t (by omega) c3 hc.1 hc.2]
      · right; left
        refine ⟨by omega, ?_⟩
        have : isCont b1.val = false := by
          simp only [isCont, Bool.and_eq_false_iff, decide_eq_false_iff_not]
          omega
        rw [← hd]; simp [decodeRune, c1, c2, c3, this]
  by_cases c4 : b0.val < 0xF0
  · by_cases hc : ∃ b1 b2 t, rest = b1 :: b2 :: t
        ∧ (if b0.val = 0xE0 then 0xA0 else 0x80) ≤ b1.val
        ∧ b1.val ≤ (if b0.val = 0xED then 0x9F else 0xBF)
        ∧ 0x80 ≤ b2.val ∧ b2.val ≤ 0xBF
    · obtain ⟨b1, b2, t, hr, h1, h1', h2, h2'⟩ := hc
      right; right; right; left
      refine ⟨b1, b2, t, hr, by omega, c4, h1, h1', h2, h2', ?_⟩
      rw [← hd, hr, decodeRune_three b0 b1 b2 t (by omega) c4 h1 h1' h2 h2']
    · right; left
      refine ⟨by omega, ?_⟩
      rw [← hd]
      match rest, hc with
      | [], _ => simp [decodeRune, c1, c2, c3, c4]
      | [_], _ => simp [decodeRune, c1, c2, c3, c4]
      | b1 :: b2 :: t, hc =>
        simp only [decodeRune, c1, c2, c3, c4, if_false, if_true]
        by_cases e1 : (decide (b1.val < if b0.val = 0xE0 then 0xA0 else 0x80)
            || decide ((if b0.val = 0xED then 0x9F else 0xBF) < b1.val)) = true
        · rw [if_pos e1]
        · rw [if_neg e1]
          by_cases e2 : (!isCont b2.val) = true
          · rw [if_pos e2]
          · exfalso
            apply hc
            simp only [Bool.or_eq_true, decide_eq_true_eq, not_or, not_lt] at e1
            simp only [isCont, Bool.not_eq_true', Bool.and_eq_false_iff,
              decide_eq_false_iff_not, not_or, not_not] at e2
            exact ⟨b1, b2, t, rfl, e1.1, e1.2, e2.1, e2.2⟩
  by_cases c5 : b0.val < 0xF5
  · by_cases hc : ∃ b1 b2 b3 t, rest = b1 :: b2 :: b3 :: t
        ∧ (if b0.val = 0xF0 then 0x90 else 0x80) ≤ b1.val
        ∧ b1.val ≤ (if b0.val = 0xF4 then 0x8F else 0xBF)
        ∧ 0x80 ≤ b2.val ∧ b2.val ≤ 0xBF ∧ 0x80 ≤ b3.val ∧ b3.val ≤ 0xBF
    · obtain ⟨b1, b2, b3, t, hr, h1, h1', h2, h2', h3, h3'⟩ := hc
      right; right; right; right
      refine ⟨b1, b2, b3, t, hr, by omega, c5, h1, h1', h2, h2', h3, h3', ?_⟩
      rw [← hd, hr, decodeRune_four b0 b1 b2 b3 t (by omega) c5 h1 h1' h2 h2' h3 h3']
    · right; left
      refine ⟨by omega, ?_⟩
      rw [← hd]
      match rest, hc with
      | [], _ => simp [decodeRune, c1, c2, c3, c4, c5]
      | [_], _ => simp [decodeRune, c1, c2, c3, c4, c5]
      | [_, _], _ => simp [decodeRune, c1, c2, c3, c4, c5]
      | b1 :: b2 :: b3 :: t, hc =>
        simp only [decodeRune, c1, c2, c3, c4, c5, if_false, if_true]
        by_cases e1 : (decide (b1.val < if b0.val = 0xF0 then 0x90 else 0x80)
            || decide ((if b0.val = 0xF4 then 0x8F else 0xBF) < b1.val)) = true
        · rw [if_pos e1]
        · rw [if_neg e1]
          by_cases e2 : (!isCont b2.val) = true
          · rw [if_pos e2]
          · rw [if_neg e2]
            by_cases e3 : (!isCont b3.val) = true
            · rw [if_pos e3]
            · exfalso
              apply hc
              simp only [Bool.or_eq_true, decide_eq_true_eq, not_or, not_lt] at e1
              simp only [isCont, Bool.not_eq_true', Bool.and_eq_false_iff,
                decide_eq_false_iff_not, not_or, not_not] at e2 e3
              exact ⟨b1, b2, b3, t, rfl, e1.1, e1.2, e2.1, e2.2, e3.1, e3.2⟩
  · right; left
    refine ⟨by omega, ?_⟩
    rw [← hd]; simp [decodeRune, c1, c2, c3, c4, c5]

theorem hexVal_hexDigit (n : Nat) (h : n < 16) : hexVal (hexDigit n) = some n := by
  interval_cases n <;> decide

theorem getu4_escape (h3 h2 h1 h0 : Byte) (a b c d : Nat) (t : List Byte)
    (e3 : hexVal h3 = some a) (e2 : hexVal h2 = some b) (e1 : hexVal h1 = some c)
    (e0 : hexVal h0 = some d) :
    getu4 (0x5C :: 0x75 :: h3 :: h2 :: h1 :: h0 :: t)
      = some (a * 0x1000 + b * 0x100 + c * 0x10 + d) := by
  simp [getu4, e3, e2, e1, e0]

theorem unquote_plain (c : Byte) (f : Nat) (t : List Byte) (h1 : c ≠ 0x22) (h2 : c ≠ 0x5C)
    (h3 : 0x20 ≤ c.val) (h4 : c.val < 0x80) :
    unquoteAux (f + 1) (c :: t) = prepend [c] (unquoteAux f t) := by
  have h3' : ¬ (c.val < 0x20) := by omega
  simp [unquoteAux, h1, h2, h3', h4]

theorem unquote_u (f : Nat) (h3 h2 h1 h0 : Byte) (t : List Byte) (rr : Nat)
    (hg : getu4 (0x5C :: 0x75 :: h3 :: h2 :: h1 :: h0 :: t) = some rr)
    (hs : ¬ (0xD800 ≤ rr ∧ rr < 0xE000)) :
    unquoteAux (f + 1) (0x5C :: 0x75 :: h3 :: h2 :: h1 :: h0 :: t)
      = prepend (runeToString rr) (unquoteAux f t) := by
  rw [unquoteAux]
  rw [if_neg (by decide), if_pos rfl]
  simp only
  rw [if_neg (by decide), if_neg (by decide), if_neg (by decide), if_neg (by decide),
    if_neg (by decide), if_neg (by decide), if_pos trivial, hg]
  simp only
  rw [if_neg hs]
  rfl

theorem runeToString_ascii (b : Byte) (h : b.val < 0x80) : runeToString b.val = [b] := by
  unfold runeToString
  rw [if_pos h, byte_eq b _ rfl]

theorem unquote_escape (b : Byte) (f : Nat) (t : List Byte) (hb : b.val < 0x80)
    (hs : htmlSafe b.val = false) :
    unquoteAux (f + 1) (escapeByte b ++ t) = prepend [b] (unquoteAux f t) := by
  unfold escapeByte
  split
  · rename_i h
    rcases h with h | h <;> subst h <;> simp [unquoteAux]
  · split
    · rename_i h; subst h; simp [unquoteAux]
    · split
      · rename_i h; subst h; simp [unquoteAux]
      · split
        · rename_i h; subst h; simp [unquoteAux]
        · split
          · rename_i h; subst h; simp [unquoteAux]
          · split
            · rename_i h; subst h; simp [unquoteAux]
            · have hlt := b.isLt
              have hg := getu4_escape 0x30 0x30 (hexDigit (b.val / 16)) (hexDigit (b.val % 16))
                0 0 (b.val / 16) (b.val % 16) t (by decide) (by decide)
                (hexVal_hexDigit _ (by omega)) (hexVal_hexDigit _ (by omega))
              have hv : 0 * 0x1000 + 0 * 0x100 + b.val / 16 * 0x10 + b.val % 16 = b.val := by
                omega
              rw [hv] at hg
              simp only [List.cons_append, List.nil_append]
              rw [unquote_u f _ _ _ _ t b.val hg (by omega), runeToString_ascii b hb]

/-- A rune written as its own bytes, the first of them not ASCII, is read back
as the same bytes. -/
theorem unquote_raw (r : Nat) (f : Nat) (t : List Byte) (hv : validRune r)
    (c : Byte) (cs : List Byte) (hs : runeToString r = c :: cs) (hc : 0x80 ≤ c.val) :
    unquoteAux (f + 1) (c :: cs ++ t) = prepend (c :: cs) (unquoteAux f t) := by
  have hd := decodeRune_runeToString r hv t
  rw [hs] at hd
  have h1 : c ≠ 0x22 := by intro e; rw [e] at hc; revert hc; decide
  have h2 : c ≠ 0x5C := by intro e; rw [e] at hc; revert hc; decide
  have h3 : ¬ (c.val < 0x20) := by omega
  have h4 : ¬ (c.val < 0x80) := by omega
  simp only [List.cons_append] at hd ⊢
  simp [unquoteAux, h1, h2, h3, h4, hd]
  rw [hs]

theorem prepend_some (bs s : GoString) (rest : List Byte) :
    prepend bs (some (s, rest)) = some (bs ++ s, rest) := rfl

/-- The width of a decoded rune is between one and the length of the string,
and without an encoding error the bytes it spans are the encoding of the rune. -/
theorem decodeRune_span (b : Byte) (bs : GoString) :
    1 ≤ (decodeRune (b :: bs)).2 ∧ (decodeRune (b :: bs)).2 ≤ (b :: bs).length
    ∧ (¬ ((decodeRune (b :: bs)).1 = RuneError ∧ (decodeRune (b :: bs)).2 = 1) →
        runeToString (decodeRune (b :: bs)).1 = (b :: bs).take (decodeRune (b :: bs)).2) := by
  rcases decodeRune_cases b bs _ rfl with h | h | h | h | h
  · obtain ⟨hb, hd⟩ := h
    rw [hd]
    refine ⟨by simp, by simp, fun _ => ?_⟩
    simp [runeToString_ascii b hb]
  · obtain ⟨hb, hd⟩ := h
    rw [hd]
    refine ⟨by simp, by simp, fun hn => ?_⟩
    exact absurd ⟨rfl, rfl⟩ hn
  · obtain ⟨b1, t, hr, h0, h0', h1, h1', hd⟩ := h
    rw [hd, hr]
    refine ⟨by simp, by simp, fun _ => ?_⟩
    simp [runeToString_two b b1 h0 h0' h1 h1']
  · obtain ⟨b1, b2, t, hr, h0, h0', h1, h1', h2, h2', hd⟩ := h
    rw [hd, hr]
    refine ⟨by simp, by simp, fun _ => ?_⟩
    simp [runeToString_three b b1 b2 h0 h0' h1 h1' h2 h2']
  · obtain ⟨b1, b2, b3, t, hr, h0, h0', h1, h1', h2, h2', h3, h3', hd⟩ := h
    rw [hd, hr]
    refine ⟨by simp, by simp, fun _ => ?_⟩
    simp [runeToString_four b b1 b2 b3 h0 h0' h1 h1' h2 h2' h3 h3']

theorem htmlSafe_plain (b : Byte) (h : htmlSafe b.val = true) :
    b ≠ 0x22 ∧ b ≠ 0x5C ∧ 0x20 ≤ b.val ∧ b.val < 0x80 := by
  simp only [htmlSafe, Bool.and_eq_true, decide_eq_true_eq, bne_iff_ne, ne_eq] at h
  obtain ⟨⟨⟨⟨⟨⟨h1, h2⟩, h3⟩, h4⟩, _⟩, _⟩, _⟩ := h
  refine ⟨?_, ?_, h1, h2⟩
  · intro e; apply h3; rw [e]; rfl
  · intro e; apply h4; rw [e]; rfl

/-- Reading back what `appendString` wrote for a valid string gives the string
and the text after the closing quote. -/
theorem unquote_appendStringAux (n : Nat) :
    ∀ (s : GoString) (fuel : Nat) (rest : List Byte),
      s.length ≤ n → validAux n s = true → (appendStringAux n s).length < fuel →
      unquoteAux fuel (appendStringAux n s ++ 0x22 :: rest) = some (s, rest) := by
  induction n with
  | zero =>
    intro s fuel rest hlen _ hfuel
    have hs : s = [] := List.eq_nil_of_length_eq_zero (by omega)
    subst hs
    obtain ⟨f, rfl⟩ : ∃ f, fuel = f + 1 := ⟨fuel - 1, by omega⟩
    simp [appendStringAux, unquoteAux]
  | succ m ih =>
    intro s fuel rest hlen hvalid hfuel
    obtain ⟨f, rfl⟩ : ∃ f, fuel = f + 1 := ⟨fuel - 1, by omega⟩
    cases s with
    | nil => simp [appendStringAux, unquoteAux]
    | cons b bs =>
      obtain ⟨hk1, hk2, hspan⟩ := decodeRune_span b bs
      simp only [validAux, Bool.and_eq_true, Bool.not_eq_true', decide_eq_false_iff_not]
        at hvalid
      obtain ⟨hok, hvalid'⟩ := hvalid
      have htake := hspan hok
      have hdroplen : ((b :: bs).drop (decodeRune (b :: bs)).2).length ≤ m := by
        rw [List.length_drop]
        simp only [List.length_cons] at hlen hk2 ⊢
        omega
      by_cases hb : b.val < 0x80
      · have hd := decodeRune_one b bs hb
        rw [hd] at hvalid' hdroplen
        simp only [List.drop_succ_cons, List.drop_zero] at hvalid' hdroplen
        rw [appendStringAux, if_pos hb] at hfuel ⊢
        by_cases hsafe : htmlSafe b.val = true
        · rw [if_pos hsafe] at hfuel ⊢
          obtain ⟨h1, h2, h3, h4⟩ := htmlSafe_plain b hsafe
          simp only [List.cons_append, List.nil_append, List.length_cons] at hfuel ⊢
          rw [unquote_plain b f _ h1 h2 h3 h4, ih bs f rest hdroplen hvalid' (by omega)]
          rfl
        · rw [if_neg hsafe] at hfuel ⊢
          have hsafe' : htmlSafe b.val = false := by simpa using hsafe
          have hpos : 1 ≤ (escapeByte b).length := by
            unfold escapeByte
            repeat' split
            all_goals simp
          rw [List.append_assoc, unquote_escape b f _ hb hsafe',
            ih bs f rest hdroplen hvalid' (by
              rw [List.length_append] at hfuel
              omega)]
          rfl
      · rw [appendStringAux, if_neg hb, if_neg hok] at hfuel ⊢
        have hsplit : (b :: bs).take (decodeRune (b :: bs)).2
            ++ (b :: bs).drop (decodeRune (b :: bs)).2 = b :: bs := List.take_append_drop _ _
        by_cases hsep : (decodeRune (b :: bs)).1 = 0x2028 ∨ (decodeRune (b :: bs)).1 = 0x2029
        · rw [if_pos hsep] at hfuel ⊢
          have hg := getu4_escape 0x32 0x30 0x32 (hexDigit ((decodeRune (b :: bs)).1 % 16))
            2 0 2 ((decodeRune (b :: bs)).1 % 16)
            (appendStringAux m ((b :: bs).drop (decodeRune (b :: bs)).2) ++ 0x22 :: rest)
            (by decide) (by decide) (by decide) (hexVal_hexDigit _ (by omega))
          have hv : 2 * 0x1000 + 0 * 0x100 + 2 * 0x10 + (decodeRune (b :: bs)).1 % 16
              = (decodeRune (b :: bs)).1 := by
            rcases hsep with h | h <;> rw [h]
          rw [hv] at hg
          simp only [List.cons_append, List.nil_append, List.length_cons] at hfuel ⊢
          rw [unquote_u f _ _ _ _ _ _ hg (by rcases hsep with h | h <;> rw [h] <;> omega),
            ih _ f rest hdroplen hvalid' (by omega), prepend_some, htake, hsplit]
        · rw [if_neg hsep] at hfuel ⊢
          have hne : (b :: bs).take (decodeRune (b :: bs)).2
              = b :: bs.take ((decodeRune (b :: bs)).2 - 1) := by
            obtain ⟨k, hk⟩ : ∃ k, (decodeRune (b :: bs)).2 = k + 1 :=
              ⟨(decodeRune (b :: bs)).2 - 1, by omega⟩
            rw [hk]; simp
          rw [hne] at htake hfuel hsplit ⊢
          rw [List.append_assoc,
            unquote_raw _ f _ (decodeRune_valid (b :: bs)) b _ htake (by omega),
            ih _ f rest hdroplen hvalid' (by
              rw [List.length_append] at hfuel
              simp only [List.length_cons] at hfuel
              omega), prepend_some, hsplit]

theorem isDigit_byte (d : Nat) (h : d < 10) : isDigit (byte (0x30 + d)) = true := by
  simp only [isDigit, byte_val, Bool.and_eq_true, decide_eq_true_eq]
  omega

theorem natDigits_all (f n : Nat) : ∀ b ∈ natDigits f n, isDigit b = true := by
  induction f generalizing n with
  | zero => intro b hb; simp [natDigits] at hb
  | succ k ih =>
    intro b hb
    unfold natDigits at hb
    split at hb
    · simp only [List.mem_singleton] at hb
      rw [hb]; exact isDigit_byte n (by omega)
    · rcases List.mem_append.1 hb with hb | hb
      · exact ih _ b hb
      · simp only [List.mem_singleton] at hb
        rw [hb]; exact isDigit_byte _ (by omega)

theorem digitsValue_natDigits (f n : Nat) (h : n < f) (acc : Nat) :
    digitsValue (natDigits f n) acc = acc * 10 ^ (natDigits f n).length + n := by
  induction f generalizing n acc with
  | zero => omega
  | succ k ih =>
    unfold natDigits
    split
    · simp only [digitsValue, List.foldl_cons, List.foldl_nil, byte_val, List.length_singleton]
      omega
    · rename_i hn
      have hk : n / 10 < k := by omega
      have := ih (n / 10) hk acc
      simp only [digitsValue, List.foldl_append, List.foldl_cons, List.foldl_nil, byte_val,
        List.length_append, List.length_singleton] at this ⊢
      rw [this, pow_succ]
      have h1 : (48 + n % 10) % 256 - 48 = n % 10 := by omega
      rw [h1]
      have h2 := Nat.div_add_mod n 10
      nlinarith [h2]

theorem parseDigits_append (ds : List Byte) (hds : ∀ b ∈ ds, isDigit b = true)
    (rest : List Byte) (acc : Nat) :
    parseDigits (ds ++ rest) acc = parseDigits rest (digitsValue ds acc) := by
  induction ds generalizing acc with
  | nil => rfl
  | cons d ds ih =>
    have hd := hds d (List.mem_cons_self _ _)
    have step : parseDigits (d :: (ds ++ rest)) acc
        = parseDigits (ds ++ rest) (acc * 10 + (d.val - 0x30)) := by
      simp [parseDigits, hd]
    rw [List.cons_append, step, ih (fun b hb => hds b (List.mem_cons_of_mem _ hb))]
    rfl

theorem parseDigits_stop (c : Byte) (rest : List Byte) (acc : Nat) (hc : isDigit c = false) :
    parseDigits (c :: rest) acc = (acc, c :: rest) := by
  simp [parseDigits, hc]

/-- The first digit of a positive number is not `0`. -/
theorem natDigits_head (f n : Nat) (h : n < f) :
    ∃ d ds, natDigits f n = d :: ds ∧ (d = 0x30 → n = 0) ∧ (n = 0 → ds = []) := by
  induction f generalizing n with
  | zero => omega
  | succ k ih =>
    unfold natDigits
    split
    · refine ⟨_, [], rfl, ?_, fun _ => rfl⟩
      intro hd
      have := congrArg Fin.val hd
      rw [byte_val] at this
      have h48 : ((0x30 : Byte)).val = 48 := rfl
      rw [h48] at this
      omega
    · rename_i hn
      obtain ⟨d, ds, he, h0, _⟩ := ih (n / 10) (by omega)
      refine ⟨d, ds ++ [byte (0x30 + n % 10)], by rw [he]; rfl, ?_, fun hz => by omega⟩
      intro hd
      have := h0 hd
      omega

/-- An unsigned integer is read back from its decimal text when the text after
it starts with a byte that cannot continue a number. -/
theorem parseNatLit_natDigits (n : Nat) (c : Byte) (rest : List Byte)
    (hc : isDigit c = false) (hc1 : c ≠ 0x2E) (hc2 : c ≠ 0x65) (hc3 : c ≠ 0x45) :
    parseNatLit (natDigits (n + 1) n ++ c :: rest) = some (n, c :: rest) := by
  obtain ⟨d, ds, he, h0, hz⟩ := natDigits_head (n + 1) n (by omega)
  have hall := natDigits_all (n + 1) n
  have hval := digitsValue_natDigits (n + 1) n (by omega) 0
  have hpd := parseDigits_append (natDigits (n + 1) n) hall (c :: rest) 0
  rw [hval, parseDigits_stop c rest _ hc] at hpd
  simp only [Nat.zero_mul, Nat.zero_add] at hpd
  have hd : isDigit d = true := hall d (by rw [he]; exact List.mem_cons_self _ _)
  rw [he] at hpd ⊢
  simp only [List.cons_append] at hpd ⊢
  unfold parseNatLit
  simp only [hd, Bool.not_true, Bool.false_eq_true, if_false]
  by_cases hd0 : d = 0x30
  · have hn := h0 hd0
    have hds := hz hn
    subst hn
    subst hds
    simp [hd0, hc, hc1, hc2, hc3]
  · rw [if_neg hd0, hpd]
    simp [hc, hc1, hc2, hc3]

theorem parseIntLit_formatInt (n : Int) (c : Byte) (rest : List Byte)
    (hc : isDigit c = false) (hc1 : c ≠ 0x2E) (hc2 : c ≠ 0x65) (hc3 : c ≠ 0x45) :
    parseIntLit (formatInt n ++ c :: rest) = some (n, c :: rest) := by
  unfold formatInt
  split
  · rename_i hneg
    simp only [List.cons_append, parseIntLit, if_true]
    rw [parseNatLit_natDigits _ c rest hc hc1 hc2 hc3]
    simp only [Option.some.injEq, Prod.mk.injEq, and_true]
    omega
  · rename_i hneg
    obtain ⟨d, ds, he, _, _⟩ := natDigits_head (n.toNat + 1) n.toNat (by omega)
    have hall := natDigits_all (n.toNat + 1) n.toNat
    have hd : isDigit d = true := hall d (by rw [he]; exact List.mem_cons_self _ _)
    have hne : d ≠ 0x2D := by
      intro e; rw [e] at hd; revert hd; decide
    have := parseNatLit_natDigits n.toNat c rest hc hc1 hc2 hc3
    rw [he] at this ⊢
    simp only [List.cons_append] at this ⊢
    simp only [parseIntLit, hne, if_false, this]
    simp only [Option.some.injEq, Prod.mk.injEq, and_true]
    omega

theorem skipSpace_cons (b : Byte) (t : List Byte) (h : isJSONSpace b = false) :
    skipSpace (b :: t) = b :: t := by
  simp [skipSpace, h]

theorem formatInt_head (n : Int) :
    ∃ d ds, formatInt n = d :: ds ∧ isJSONSpace d = false := by
  unfold formatInt
  split
  · exact ⟨0x2D, _, rfl, by decide⟩
  · obtain ⟨d, ds, he, _, _⟩ := natDigits_head (n.toNat + 1) n.toNat (by omega)
    have hd : isDigit d = true :=
      natDigits_all (n.toNat + 1) n.toNat d (by rw [he]; exact List.mem_cons_self _ _)
    refine ⟨d, ds, he, ?_⟩
    simp only [isDigit, Bool.and_eq_true, decide_eq_true_eq] at hd
    have h1 : d ≠ 0x20 := by intro e; rw [e] at hd; revert hd; decide
    have h2 : d ≠ 0x09 := by intro e; rw [e] at hd; revert hd; decide
    have h3 : d ≠ 0x0D := by intro e; rw [e] at hd; revert hd; decide
    have h4 : d ≠ 0x0A := by intro e; rw [e] at hd; revert hd; decide
    simp [isJSONSpace, h1, h2, h3, h4]

theorem parseMembers_succ (fuel : Nat) (input : List Byte) (m : GoMap GoString) :
    parseMembers (fuel + 1) input m
      = match skipSpace input with
        | [] => none
        | q :: rest =>
          if q = 0x22 then
            match unquoteAux (rest.length + 1) rest with
            | none => none
            | some (key, rest1) =>
              match skipSpace rest1 with
              | [] => none
              | colon :: rest2 =>
                if colon = 0x3A then
                  match parseIntLit (skipSpace rest2) with
                  | none => none
                  | some (v, rest3) =>
                    match skipSpace rest3 with
                    | [] => none
                    | sep :: rest4 =>
                      if sep = 0x2C then parseMembers fuel rest4 (m.set key v)
                      else if sep = 0x7D then some (m.set key v, rest4)
                      else none
                else none
          else none := by
  rw [parseMembers]

/-- One member followed by a separator is read and stored, and reading goes on
after the separator. -/
theorem parseMembers_step (fuel : Nat) (key : GoString) (v : Int) (sep : Byte)
    (tail : List Byte) (m : GoMap GoString) (hkey : ValidString key = true)
    (hsep : sep = 0x2C ∨ sep = 0x7D) :
    parseMembers (fuel + 1) (appendString key ++ 0x3A :: formatInt v ++ sep :: tail) m
      = if sep = 0x2C then parseMembers fuel tail (m.set key v)
        else some (m.set key v, tail) := by
  have hsepd : isDigit sep = false ∧ sep ≠ 0x2E ∧ sep ≠ 0x65 ∧ sep ≠ 0x45
      ∧ isJSONSpace sep = false := by
    rcases hsep with h | h <;> subst h <;> decide
  obtain ⟨hs1, hs2, hs3, hs4, hs5⟩ := hsepd
  obtain ⟨d, ds, hfi, hdsp⟩ := formatInt_head v
  have hint := parseIntLit_formatInt v sep tail hs1 hs2 hs3 hs4
  have hq := unquote_appendStringAux key.length key
    ((appendStringAux key.length key
        ++ 0x22 :: (0x3A :: formatInt v ++ sep :: tail)).length + 1)
    (0x3A :: formatInt v ++ sep :: tail) (le_refl _) hkey (by
      rw [List.length_append]; omega)
  have hin : appendString key ++ 0x3A :: formatInt v ++ sep :: tail
      = 0x22 :: (appendStringAux key.length key
          ++ 0x22 :: (0x3A :: formatInt v ++ sep :: tail)) := by
    simp [appendString]
  rw [hin, parseMembers_succ, skipSpace_cons _ _ (by decide)]
  simp only [if_true, hq]
  have h3A : skipSpace (0x3A :: formatInt v ++ sep :: tail)
      = 0x3A :: (formatInt v ++ sep :: tail) := by
    rw [List.cons_append, skipSpace_cons _ _ (by decide)]
  rw [h3A]
  simp only [if_true]
  have hsk : skipSpace (formatInt v ++ sep :: tail) = formatInt v ++ sep :: tail := by
    rw [hfi, List.cons_append, skipSpace_cons _ _ hdsp]
  rw [hsk, hint]
  simp only
  rw [skipSpace_cons _ _ hs5]
  simp only
  rcases hsep with h | h
  · subst h; simp
  · subst h; simp

/-- The members that `encodeMembers` wrote, followed by the closing brace, are
read back and stored one after the other. -/
theorem parseMembers_encodeMembers (l : List (GoString × Int)) (hl : l ≠ [])
    (hvalid : ∀ e ∈ l, ValidString e.1 = true) (fuel : Nat) (hfuel : l.length ≤ fuel)
    (tail : List Byte) (m : GoMap GoString) :
    parseMembers fuel (encodeMembers l ++ 0x7D :: tail) m = some (storeAll m l, tail) := by
  induction l generalizing fuel m with
  | nil => exact absurd rfl hl
  | cons e rest ih =>
    obtain ⟨f, rfl⟩ : ∃ f, fuel = f + 1 :=
      ⟨fuel - 1, by simp only [List.length_cons] at hfuel; omega⟩
    have hkey := hvalid e (List.mem_cons_self _ _)
    cases rest with
    | nil =>
      have := parseMembers_step f e.1 e.2 0x7D tail m hkey (Or.inr rfl)
      rw [if_neg (by decide)] at this
      simp only [encodeMembers, storeAll, List.foldl_cons, List.foldl_nil]
      rw [← this]
    | cons e' rest' =>
      have := parseMembers_step f e.1 e.2 0x2C (encodeMembers (e' :: rest') ++ 0x7D :: tail)
        m hkey (Or.inl rfl)
      rw [if_pos rfl] at this
      have henc : encodeMembers (e :: e' :: rest') ++ 0x7D :: tail
          = appendString e.1 ++ 0x3A :: formatInt e.2
              ++ 0x2C :: (encodeMembers (e' :: rest') ++ 0x7D :: tail) := by
        simp [encodeMembers]
      rw [henc, this, ih (by simp) (fun x hx => hvalid x (List.mem_cons_of_mem _ hx)) f
        (by simp only [List.length_cons] at hfuel ⊢; omega)]
      rfl

theorem GoMap.set_fresh (m : GoMap GoString) (k : GoString) (v : Int) (h : k ∉ m.keys) :
    m.set k v = m ++ [(k, v)] := by
  induction m with
  | nil => rfl
  | cons e rest ih =>
    obtain ⟨k₀, v₀⟩ := e
    simp only [GoMap.keys, List.map_cons, List.mem_cons, not_or] at h
    have h₀ : ¬ (k₀ = k) := fun e => h.1 e.symm
    simp only [GoMap.set, h₀, if_false, List.cons_append]
    rw [ih h.2]

/-- Storing entries with new, distinct keys appends them. -/
theorem storeAll_fresh (l : List (GoString × Int)) (m : GoMap GoString)
    (hnd : (GoMap.keys (m ++ l)).Nodup) : storeAll m l = m ++ l := by
  induction l generalizing m with
  | nil => simp [storeAll]
  | cons e rest ih =>
    have hsplit : m ++ e :: rest = (m ++ [e]) ++ rest := by simp
    have hk : e.1 ∉ m.keys := by
      intro hmem
      simp only [GoMap.keys, List.map_append, List.map_cons] at hnd
      have := (List.nodup_append.1 hnd).2.2
      exact this hmem (List.mem_cons_self _ _)
    simp only [storeAll, List.foldl_cons]
    rw [GoMap.set_fresh m e.1 e.2 hk]
    rw [hsplit] at hnd ⊢
    exact ih (m ++ [e]) hnd

theorem encodeMembers_cons (e : GoString × Int) (rest : List (GoString × Int)) :
    ∃ t, encodeMembers (e :: rest) = 0x22 :: t := by
  cases rest with
  | nil => exact ⟨_, rfl⟩
  | cons e' rest' => exact ⟨_, rfl⟩

theorem encodeMembers_length (l : List (GoString × Int)) :
    l.length ≤ (encodeMembers l).length := by
  induction l with
  | nil => simp
  | cons e rest ih =>
    cases rest with
    | nil => simp [encodeMembers, appendString]
    | cons e' rest' =>
      have h : encodeMembers (e :: e' :: rest')
          = appendString e.1 ++ 0x3A :: formatInt e.2 ++ 0x2C :: encodeMembers (e' :: rest') :=
        rfl
      rw [h]
      simp only [List.length_append, List.length_cons] at ih ⊢
      omega

/-- Reading back what `json.Marshal` wrote for a map with distinct, valid keys
into an empty map gives the entries of the map, sorted by key. -/
theorem jsonUnmarshal_jsonMarshal (m : GoMap GoString) (hnd : m.keys.Nodup)
    (hvalid : ∀ e ∈ m, ValidString e.1 = true) :
    jsonUnmarshal (jsonMarshal m) [] = some (m.insertionSort keyLE) := by
  have hperm := List.perm_insertionSort keyLE m
  have hnd' : (GoMap.keys (m.insertionSort keyLE)).Nodup :=
    (List.Perm.nodup_iff (List.Perm.map Prod.fst hperm)).2 hnd
  have hvalid' : ∀ e ∈ m.insertionSort keyLE, ValidString e.1 = true :=
    fun e he => hvalid e (hperm.mem_iff.1 he)
  generalize hl : m.insertionSort keyLE = l at hnd' hvalid'
  unfold jsonMarshal jsonUnmarshal
  rw [hl, skipSpace_cons _ _ (by decide)]
  simp only [if_true]
  cases l with
  | nil => rfl
  | cons e rest =>
    have hpm := parseMembers_encodeMembers (e :: rest) (by simp) hvalid'
      ((0x7B :: (encodeMembers (e :: rest) ++ [0x7D])).length + 1) (by
        have := encodeMembers_length (e :: rest)
        simp only [List.length_cons, List.length_append] at this ⊢
        omega) [] []
    have hst : storeAll [] (e :: rest) = e :: rest :=
      storeAll_fresh (e :: rest) [] (by simpa using hnd')
    rw [hst] at hpm
    obtain ⟨t, ht⟩ := encodeMembers_cons e rest
    rw [ht] at hpm ⊢
    simp only [List.cons_append] at hpm ⊢
    rw [skipSpace_cons _ _ (by decide)]
    simp only
    rw [if_neg (by decide), hpm]
    rfl

theorem Bucket.get_put (db : Bucket) (k : GoString) (v : List Byte) :
    (db.put k v).get k = v := by
  induction db with
  | nil => simp [Bucket.put, Bucket.get]
  | cons e rest ih =>
    obtain ⟨k₀, v₀⟩ := e
    by_cases h : k₀ = k <;> simp [Bucket.put, Bucket.get, h, ih]

/-- A save followed by a load into the empty state gives the saved entries,
sorted by key, when the keys are distinct and valid UTF-8. -/
theorem load_store (st : State) (db : Bucket) (hnd : st.seenStrings.keys.Nodup)
    (hvalid : ∀ e ∈ st.seenStrings, ValidString e.1 = true) :
    (loadStatistics (storeStatistics st db) State.empty).seenStrings
      = st.seenStrings.insertionSort keyLE := by
  unfold loadStatistics storeStatistics
  rw [Bucket.get_put]
  have := jsonUnmarshal_jsonMarshal st.seenStrings hnd hvalid
  simp only [State.empty] at this ⊢
  rw [this]

/-- Two maps with distinct keys and the same entries read the same at every
key and have the same keys. -/
theorem GoMap.get_perm (m₁ m₂ : GoMap GoString) (h : m₁.Perm m₂) (hnd : m₂.keys.Nodup)
    (s : GoString) : m₁.get s = m₂.get s ∧ (s ∈ m₁.keys ↔ s ∈ m₂.keys) := by
  have hk : (GoMap.keys m₁).Perm (GoMap.keys m₂) := List.Perm.map Prod.fst h
  have hnd₁ : m₁.keys.Nodup := (List.Perm.nodup_iff hk).2 hnd
  refine ⟨?_, hk.mem_iff⟩
  by_cases hs : s ∈ m₂.keys
  · have hmem := GoMap.mem_of_mem_keys m₂ s hs
    have := GoMap.get_of_mem m₁ hnd₁ _ (h.mem_iff.2 hmem)
    simpa using this
  · rw [GoMap.get_eq_zero_of_not_mem_keys m₂ s hs,
      GoMap.get_eq_zero_of_not_mem_keys m₁ s (fun h' => hs (hk.mem_iff.1 h'))]

/-! ## The fuel of the loops over a string is enough -/

/-- The loop over the runes of a string gives the same runes for any fuel that
is at least the number of bytes. -/
theorem runesAux_fuel (fuel₁ : Nat) :
    ∀ (fuel₂ : Nat) (s : GoString), s.length ≤ fuel₁ → s.length ≤ fuel₂ →
      runesAux fuel₁ s = runesAux fuel₂ s := by
  induction fuel₁ with
  | zero =>
    intro fuel₂ s h1 _
    have hs : s = [] := List.eq_nil_of_length_eq_zero (by omega)
    rw [hs, runesAux_nil, runesAux_nil]
  | succ n ih =>
    intro fuel₂ s h1 h2
    cases s with
    | nil => rw [runesAux_nil, runesAux_nil]
    | cons b bs =>
      obtain ⟨m, rfl⟩ : ∃ m, fuel₂ = m + 1 :=
        ⟨fuel₂ - 1, by simp only [List.length_cons] at h2; omega⟩
      obtain ⟨hk1, hk2, _⟩ := decodeRune_span b bs
      simp only [runesAux]
      congr 1
      apply ih
      · rw [List.length_drop]
        simp only [List.length_cons] at h1 hk2 ⊢
        omega
      · rw [List.length_drop]
        simp only [List.length_cons] at h2 hk2 ⊢
        omega

/-- The runes of a non-empty string: the first rune, then the runes of what
follows its encoding. -/
theorem runes_cons (b : Byte) (bs : GoString) :
    runes (b :: bs)
      = (decodeRune (b :: bs)).1 :: runes ((b :: bs).drop (decodeRune (b :: bs)).2) := by
  obtain ⟨hk1, hk2, _⟩ := decodeRune_span b bs
  unfold runes
  simp only [List.length_cons, runesAux]
  congr 1
  apply runesAux_fuel
  · rw [List.length_drop]
    simp only [List.length_cons] at hk2 ⊢
    omega
  · exact le_refl _

/-- The loop of `appendString` writes the same text for any fuel that is at
least the number of bytes. -/
theorem appendStringAux_fuel (fuel₁ : Nat) :
    ∀ (fuel₂ : Nat) (s : GoString), s.length ≤ fuel₁ → s.length ≤ fuel₂ →
      appendStringAux fuel₁ s = appendStringAux fuel₂ s := by
  induction fuel₁ with
  | zero =>
    intro fuel₂ s h1 _
    have hs : s = [] := List.eq_nil_of_length_eq_zero (by omega)
    subst hs
    cases fuel₂ <;> rfl
  | succ n ih =>
    intro fuel₂ s h1 h2
    cases s with
    | nil => cases fuel₂ <;> rfl
    | cons b bs =>
      obtain ⟨m, rfl⟩ : ∃ m, fuel₂ = m + 1 :=
        ⟨fuel₂ - 1, by simp only [List.length_cons] at h2; omega⟩
      obtain ⟨hk1, hk2, _⟩ := decodeRune_span b bs
      have hbs : appendStringAux n bs = appendStringAux m bs :=
        ih m bs (by simp only [List.length_cons] at h1; omega)
          (by simp only [List.length_cons] at h2; omega)
      have hdrop : appendStringAux n ((b :: bs).drop (decodeRune (b :: bs)).2)
          = appendStringAux m ((b :: bs).drop (decodeRune (b :: bs)).2) := by
        apply ih
        · rw [List.length_drop]
          simp only [List.length_cons] at h1 hk2 ⊢
          omega
        · rw [List.length_drop]
          simp only [List.length_cons] at h2 hk2 ⊢
          omega
      simp only [appendStringAux, hbs, hdrop]

/-- The loop of `utf8.ValidString` gives the same answer for any fuel that is at
least the number of bytes. -/
theorem validAux_fuel (fuel₁ : Nat) :
    ∀ (fuel₂ : Nat) (s : GoString), s.length ≤ fuel₁ → s.length ≤ fuel₂ →
      validAux fuel₁ s = validAux fuel₂ s := by
  induction fuel₁ with
  | zero =>
    intro fuel₂ s h1 _
    have hs : s = [] := List.eq_nil_of_length_eq_zero (by omega)
    subst hs
    cases fuel₂ <;> rfl
  | succ n ih =>
    intro fuel₂ s h1 h2
    cases s with
    | nil => cases fuel₂ <;> rfl
    | cons b bs =>
      obtain ⟨m, rfl⟩ : ∃ m, fuel₂ = m + 1 :=
        ⟨fuel₂ - 1, by simp only [List.length_cons] at h2; omega⟩
      obtain ⟨hk1, hk2, _⟩ := decodeRune_span b bs
      have hdrop : validAux n ((b :: bs).drop (decodeRune (b :: bs)).2)
          = validAux m ((b :: bs).drop (decodeRune (b :: bs)).2) := by
        apply ih
        · rw [List.length_drop]
          simp only [List.length_cons] at h1 hk2 ⊢
          omega
        · rw [List.length_drop]
          simp only [List.length_cons] at h2 hk2 ⊢
          omega
      simp only [validAux, hdrop]

/-! ## C8: persistence round trip -/

/-- C8, the claim as stated fails: `remember` accepts any Go string, and a key
that is not valid UTF-8 is written as the escape of `U+FFFD`.  After `remember("\xff")`, a save
and a reload give a map with the single key `U+FFFD`, so the count of `"\xff"`
reads `0` instead of `1`; and the saved bytes are those saved after
`remember("\xfe")`, so no reader could tell the two maps apart. -/
theorem reload_loses_invalid_key :
    (rememberAll State.empty [[0xFF]]).seenStrings.get [0xFF] = 1
    ∧ (loadStatistics (storeStatistics (rememberAll State.empty [[0xFF]]) [])
        State.empty).seenStrings.get [0xFF] = 0
    ∧ (loadStatistics (storeStatistics (rememberAll State.empty [[0xFF]]) [])
        State.empty).seenStrings = [([0xEF, 0xBF, 0xBD], 1)]
    ∧ storeStatistics (rememberAll State.empty [[0xFF]]) []
        = storeStatistics (rememberAll State.empty [[0xFE]]) [] := by
  decide

/-- C8, amended.  For every map reached by `remember` calls from the empty
state whose inputs are all valid UTF-8, `storeStatistics` followed by
`loadStatistics` into the empty state gives the same entries: the same keys with
the same counts.  After `remember("x")` a save and a reload give the count 1 for
`"x"`; the empty string, a two-byte rune and a control character come back too. -/
theorem persistence_round_trip :
    (∀ (inputs : List GoString) (db : Bucket), (∀ s ∈ inputs, ValidString s = true) →
        (loadStatistics (storeStatistics (rememberAll State.empty inputs) db)
            State.empty).seenStrings.Perm (rememberAll State.empty inputs).seenStrings
        ∧ ∀ s : GoString,
            (loadStatistics (storeStatistics (rememberAll State.empty inputs) db)
                State.empty).seenStrings.get s
              = (rememberAll State.empty inputs).seenStrings.get s
            ∧ (s ∈ (loadStatistics (storeStatistics (rememberAll State.empty inputs) db)
                  State.empty).seenStrings.keys
                ↔ s ∈ (rememberAll State.empty inputs).seenStrings.keys))
    ∧ (loadStatistics (storeStatistics (rememberAll State.empty [[0x78]]) [])
        State.empty).seenStrings.get [0x78] = 1
    ∧ (loadStatistics (storeStatistics
          (rememberAll State.empty [[0xC3, 0xA9], [], [0x01], []]) [])
        State.empty).seenStrings = [([], 2), ([0x01], 1), ([0xC3, 0xA9], 1)] := by
  refine ⟨fun inputs db hvalid => ?_, by decide, by decide⟩
  have hwf := wellFormed_rememberAll State.empty inputs wellFormed_empty
  have hkeys : ∀ e ∈ (rememberAll State.empty inputs).seenStrings,
      ValidString e.1 = true := by
    intro e he
    have hk : e.1 ∈ (rememberAll State.empty inputs).seenStrings.keys :=
      List.mem_map_of_mem Prod.fst he
    rw [rememberAll_mem_keys] at hk
    rcases hk with hk | hk
    · simp [State.empty, GoMap.keys] at hk
    · exact hvalid _ hk
  have hload := load_store (rememberAll State.empty inputs) db hwf.1 hkeys
  have hperm : (loadStatistics (storeStatistics (rememberAll State.empty inputs) db)
      State.empty).seenStrings.Perm (rememberAll State.empty inputs).seenStrings := by
    rw [hload]; exact List.perm_insertionSort keyLE _
  exact ⟨hperm, fun s => GoMap.get_perm _ _ hperm hwf.1 s⟩

/-- C8 amended, at the single input `"x"` and an empty bucket. -/
theorem persistence_round_trip_witness :
    (loadStatistics (storeStatistics (rememberAll State.empty [[0x78]]) [])
        State.empty).seenStrings.Perm (rememberAll State.empty [[0x78]]).seenStrings :=
  (persistence_round_trip.1 [[0x78]] [] (by decide)).1

/-! ## C10: the state after a reload -/

/-- C10.  There are a persisted map and an input, namely `{"xxxxx": 5}` and
`"y"`, such that `loadStatistics` produces the state with that map and empty
`mostPopularInput` and `longestInput`, and one `remember` call from it leaves
`mostPopularInput` with a count below the maximum count and `longestInput` with
fewer runes than a key: both become `"y"`, with count 1. -/
theorem reload_breaks_invariants :
    ∃ (persisted : GoMap GoString) (input : GoString),
      loadStatistics [(statisticsKey, jsonMarshal persisted)] State.empty
        = ⟨persisted, [], []⟩
      ∧ (∃ c, IsMaxCount (remember ⟨persisted, [], []⟩ input).seenStrings c
          ∧ (remember ⟨persisted, [], []⟩ input).seenStrings.get
              (remember ⟨persisted, [], []⟩ input).mostPopularInput < c)
      ∧ (∃ k ∈ (remember ⟨persisted, [], []⟩ input).seenStrings.keys,
          RuneCountInString (remember ⟨persisted, [], []⟩ input).longestInput
            < RuneCountInString k)
      ∧ persisted = [([0x78, 0x78, 0x78, 0x78, 0x78], 5)] ∧ input = [0x79]
      ∧ (remember ⟨persisted, [], []⟩ input).mostPopularInput = [0x79]
      ∧ (remember ⟨persisted, [], []⟩ input).seenStrings.get [0x79] = 1
      ∧ (remember ⟨persisted, [], []⟩ input).longestInput = [0x79] := by
  refine ⟨[([0x78, 0x78, 0x78, 0x78, 0x78], 5)], [0x79], by decide, ⟨5, ?_, by decide⟩,
    ⟨[0x78, 0x78, 0x78, 0x78, 0x78], by decide, by decide⟩, rfl, rfl, by decide, by decide,
    by decide⟩
  unfold IsMaxCount
  decide

/-! ## C9: the lock around the aggregate -/

/-- C9, where the code departs from it: `remember`, `resetStatistics` and
`stats` make every access to the shared variables under `seenStringsMutex`,
`storeStatistics` reads `seenStrings` without holding it, on its own and as
called from `stringinate`.  Calls of `remember` with pairwise distinct inputs,
taken in any order, leave every input with count 1. -/
theorem storeStatistics_not_guarded :
    guarded .none rememberEvents = true
    ∧ guarded .none resetStatisticsEvents = true
    ∧ guarded .none statsEvents = true
    ∧ guarded .none storeStatisticsEvents = false
    ∧ guarded .none stringinateEvents = false
    ∧ (∀ inputs : List GoString, inputs.Nodup → ∀ s ∈ inputs,
        (rememberAll State.empty inputs).seenStrings.get s = 1) := by
  refine ⟨by decide, by decide, by decide, by decide, by decide, ?_⟩
  intro inputs hnd s hs
  have hc : ∀ l : List GoString, l.Nodup → s ∈ l → l.count s = 1 := by
    intro l
    induction l with
    | nil => intro _ h; simp at h
    | cons x xs ih =>
      intro hnd hmem
      have hx : x ∉ xs ∧ xs.Nodup := List.nodup_cons.1 hnd
      rw [List.count_cons]
      by_cases hxs : x = s
      · subst hxs
        simp [List.count_eq_zero_of_not_mem hx.1]
      · have hmem' : s ∈ xs := by
          rcases List.mem_cons.1 hmem with h | h
          · exact absurd h.symm hxs
          · exact h
        simp [hxs, ih hx.2 hmem']
  rw [rememberAll_get, hc inputs hnd hs]
  simp [State.empty, GoMap.get]

/-- C9 at the distinct inputs `"b"`, `"a"`: taken in this order, `"a"` has
count 1. -/
theorem storeStatistics_not_guarded_witness :
    (rememberAll State.empty [[0x62], [0x61]]).seenStrings.get [0x61] = 1 :=
  storeStatistics_not_guarded.2.2.2.2.2 [[0x62], [0x61]] (by decide) [0x61] (by decide)

end Stringinator
